import Mathlib

/-!
# Verification of the `node-gets` buffered line reader

This file embeds the two implementation variants of `createGets` found in
`src/index.js` (a per-instance-buffer variant and a shared-buffer registry
variant) as executable Lean definitions, and proves properties of the
embedded code.

Modelling conventions:
* A Node `Buffer` is a `List Nat` of byte values; `Buffer.allocUnsafe`
  is modelled as a zero-filled list of the requested capacity (the code
  never reads bytes it has not written inside the live region).
* `fs.readSync(fd, buf, off, n)` is modelled by consuming the head of a
  `List (List Nat)` of chunk results: each element is the byte string one
  physical read returns (the empty tail means every further read returns
  zero bytes, i.e. end of stream).  Hypotheses `d.length ≤ chunksize`
  express the `readSync` contract.
* `Buffer.toString(encoding, a, b)` is modelled as the byte slice `[a, b)`
  tagged with the encoding name (`Line`); text decoding itself is outside
  the model, only which bytes are decoded and with which encoding.
* JS numbers that stay non-negative are `Nat`; the per-instance variant's
  `OFFSET` can go negative, so it is an `Int` there.
-/

/-- Bytes `[s, e)` of a buffer, the slice `Buffer.toString`/`copy` address. -/
def bufSlice (l : List Nat) (s e : Nat) : List Nat :=
  (l.take e).drop s

/-- Overwrite `buf` starting at `pos` with `data`, as `Buffer#copy` into
`buf` does (positions outside `[pos, pos + data.length)` keep their bytes). -/
def writeAt (buf : List Nat) (pos : Nat) (data : List Nat) : List Nat :=
  buf.take pos ++ data ++ buf.drop (pos + data.length)

/-- A decoded line: the encoding handed to `Buffer.toString` together with
the byte slice it decodes. -/
structure Line where
  enc : String
  bytes : List Nat
deriving Repr, DecidableEq

/-- The shared per-handle state `{ buffer, istart, offset }` stored in
`GETS_INFO_MAP` (shared-buffer variant, src/index.js lines 131-141). -/
structure GState where
  buf : List Nat
  istart : Nat
  offset : Nat
deriving Repr, DecidableEq

/-- The `while (j < i) j <<= 1` loop of `_sub2exp`, compiled with a fuel
bound on the number of doublings.  JS `<<` is a *32-bit signed* shift: once
`j` reaches `2^30` the next shift wraps it to `-2^31` and then to `0`, so
the source loop diverges whenever the target `i` exceeds `2^30` (and also
for `j = 0 < i`).  This model instead doubles unboundedly and is total; it
agrees with the source exactly on the domain `i ≤ 2^30` (with `j ≥ 1`),
where every shift input is below `2^30` and never wraps, and where `j` at
least doubles each step so `i` units of fuel always suffice (`2^i ≥ i`).
Theorems about code paths that execute this loop carry an `≤ 2^30` bound
restricting them to that faithful domain. -/
def _sub2expAux (i : Nat) : Nat → Nat → Nat
  | j, 0 => j
  | j, fuel + 1 => if j < i then _sub2expAux i (j * 2) fuel else j

/-- JS `_sub2exp(i, j)` (src/index.js 146-150): the smallest `j * 2^n ≥ i`.
Total idealization of the source loop; faithful for `i ≤ 2^30`, while the
source diverges beyond that (see `_sub2expAux` on the Int32 `<<` wrap). -/
def _sub2exp (i j : Nat) : Nat :=
  if j < i then _sub2expAux i j i else j

/-- The compaction step of `_read`: `G.buffer.copyWithin(0, G.istart,
G.offset)` followed by the cursor updates (src/index.js lines 159-163). -/
def _shift (G : GState) : GState :=
  { buf := bufSlice G.buf G.istart G.offset ++ G.buf.drop (G.offset - G.istart)
    istart := 0
    offset := G.offset - G.istart }

/-- JS `_resize(atleast)`: reallocate to `_sub2exp(atleast, G.buffer.length)`
and copy the live region `[0, G.offset)` (src/index.js lines 174-179). -/
def _resize (G : GState) (atleast : Nat) : GState :=
  { G with buf := G.buf.take G.offset ++
      List.replicate (_sub2exp atleast G.buf.length - G.offset) 0 }

/-- The growth step of `_read` (src/index.js lines 165-167): resize when
one more chunk still would not fit. -/
def _prepareGrow (c : Nat) (G1 : GState) : GState :=
  if G1.buf.length < G1.offset + c then _resize G1 (G1.offset + c) else G1

/-- The buffer adjustment `_read` performs before each physical read:
compaction when the chunk would not fit and `istart ≠ 0` (src/index.js
lines 159-163), then growth when it still would not fit. -/
def _prepare (c : Nat) (G : GState) : GState :=
  _prepareGrow c (if G.buf.length < G.offset + c ∧ G.istart ≠ 0 then _shift G else G)

/-- The `for (let i = searchstart; i < searchend; i++)` loop of `_find`,
compiled with the remaining iteration count `e - s` as structural fuel. -/
def _findAux (buf : List Nat) (item : Nat) : Nat → Nat → Option Nat
  | _, 0 => none
  | s, fuel + 1 =>
      if buf.getD s 0 = item then some s else _findAux buf item (s + 1) fuel

/-- JS `_find(item, searchstart, searchend)` (src/index.js lines 186-190);
`none` models the JS return value `-1`. -/
def _find (buf : List Nat) (item s e : Nat) : Option Nat :=
  _findAux buf item s (e - s)

/-- JS `_string(cutidx, bufend)` (src/index.js lines 200-206): decode
`[istart, cutidx]` inclusive and advance the cursors. -/
def _string (e : String) (G : GState) (cutidx bufend : Nat) : Line × GState :=
  (⟨e, bufSlice G.buf G.istart (cutidx + 1)⟩,
   { G with istart := cutidx + 1, offset := bufend })

/-- JS `_string0()` (src/index.js lines 211-217): at end of stream, decode the
remaining `[istart, offset)` and reset both cursors, or return `undefined`
(modelled `none`) when nothing remains. -/
def _string0 (e : String) (G : GState) : Option Line × GState :=
  if G.istart = G.offset then (none, G)
  else (some ⟨e, bufSlice G.buf G.istart G.offset⟩, { G with istart := 0, offset := 0 })

/-- The `while (true)` loop of the returned `gets` closure (src/index.js
lines 226-232): prepare the buffer, perform one physical read, and either
finish at end of stream, cut at a found delimiter, or keep reading. -/
def getsLoop (c : Nat) (e : String) (G : GState) (src : List (List Nat)) :
    Option Line × GState × List (List Nat) :=
  match src with
  | [] =>
      -- readSync returns 0 bytes: bufend = offset, so `_string0` runs
      let G1 := _prepare c G
      ((_string0 e G1).1, (_string0 e G1).2, [])
  | d :: rest =>
      let G1 := _prepare c G
      let G2 : GState := { G1 with buf := writeAt G1.buf G1.offset d }
      let bufend := G2.offset + d.length
      if bufend = G2.offset then
        ((_string0 e G2).1, (_string0 e G2).2, rest)
      else
        match _find G2.buf 10 G2.offset bufend with
        | some cutidx =>
            (some (_string e G2 cutidx bufend).1, (_string e G2 cutidx bufend).2, rest)
        | none => getsLoop c e { G2 with offset := bufend } rest

/-- One call of the returned `gets` closure (src/index.js lines 219-233):
fast path over pending bytes, otherwise the read loop. -/
def getsCall (c : Nat) (e : String) (G : GState) (src : List (List Nat)) :
    Option Line × GState × List (List Nat) :=
  if G.istart = G.offset then getsLoop c e G src
  else
    match _find G.buf 10 G.istart G.offset with
    | some cutidx =>
        (some (_string e G cutidx G.offset).1, (_string e G cutidx G.offset).2, src)
    | none => getsLoop c e G src

/-- Run `n` successive calls of the `gets` closure, collecting each result. -/
def getsCalls (c : Nat) (e : String) :
    Nat → GState → List (List Nat) → List (Option Line) × GState × List (List Nat)
  | 0, G, src => ([], G, src)
  | n + 1, G, src =>
      match getsCall c e G src with
      | (r, G', s') =>
          match getsCalls c e n G' s' with
          | (rs, G'', s'') => (r :: rs, G'', s'')

/-- The unconsumed bytes `[istart, offset)` of a shared state. -/
def pend (G : GState) : List Nat :=
  bufSlice G.buf G.istart G.offset

/-- Cursor well-formedness: `0 ≤ istart ≤ offset ≤ capacity` (the `0 ≤`
bound is inherent to `Nat`), plus positivity of the capacity, which the
constructor establishes (`_sub2exp(bufsize) ≥ 1`). -/
def WF (G : GState) : Prop :=
  G.istart ≤ G.offset ∧ G.offset ≤ G.buf.length ∧ 0 < G.buf.length

instance (G : GState) : Decidable (WF G) := by
  unfold WF; infer_instance

/-! ## The module level: `GETS_INFO_MAP`, `createGets`, `module.exports`

`GETS_INFO_MAP` maps a file descriptor to a mutable state object that every
reader built for that descriptor aliases.  We model the JS heap explicitly:
`World.heap` holds the allocated `GState` objects (an address is an index),
and the registry maps descriptors to addresses.  A reader closure captures
the address of its state object at construction (`const G =
GETS_INFO_MAP.get(fd)`), never the registry itself. -/

/-- The world: allocated shared states plus the `GETS_INFO_MAP` contents. -/
structure World where
  heap : List GState
  registry : List (Nat × Nat)
deriving Repr, DecidableEq

/-- JS `GETS_INFO_MAP.get(fd)`: address of the state registered for `fd`. -/
def regLookup (R : List (Nat × Nat)) (fd : Nat) : Option Nat :=
  match R with
  | [] => none
  | (k, v) :: rest => if k = fd then some v else regLookup rest fd

/-- What the returned `gets` closure captures: the descriptor, the validated
chunk size, the encoding, and the address of the shared state object. -/
structure GetsConfig where
  fd : Nat
  chunksize : Nat
  encoding : String
  gref : Nat
deriving Repr, DecidableEq

/-- JS `createGets(fd, bufsize, chunksize, encoding)` of the shared-buffer
variant (src/index.js lines 121-144): validate the sizes, allocate and
register a fresh state when none exists for `fd`, and capture the (possibly
pre-existing) state object in the closure.  Sizes are `Int` because the JS
validation tests `<= 0`. -/
def createGets (fd : Nat) (bufsize chunksize : Int) (encoding : String)
    (w : World) : GetsConfig × World :=
  let bsz : Nat := if bufsize ≤ 0 then 32768 else bufsize.toNat
  let csz : Nat := if chunksize ≤ 0 then 2048 else chunksize.toNat
  match regLookup w.registry fd with
  | some a => (⟨fd, csz, encoding, a⟩, w)
  | none =>
      (⟨fd, csz, encoding, w.heap.length⟩,
       ⟨w.heap ++ [⟨List.replicate (_sub2exp bsz 1) 0, 0, 0⟩],
        (fd, w.heap.length) :: w.registry⟩)

/-- JS `createGets()` with every argument defaulted (src/index.js 121-126). -/
def createGetsDefaults (w : World) : GetsConfig × World :=
  createGets 0 32768 2048 "utf-8" w

/-- One call of a reader at the world level: the closure reads and writes
the state object it captured at construction, through its address. -/
def readerCall (cfg : GetsConfig) (w : World) (src : List (List Nat)) :
    Option Line × World × List (List Nat) :=
  match getsCall cfg.chunksize cfg.encoding (w.heap.getD cfg.gref ⟨[], 0, 0⟩) src with
  | (r, G', s') => (r, ⟨w.heap.set cfg.gref G', w.registry⟩, s')

/-- The names exported by the shared-buffer variant's `module.exports`
(src/index.js lines 236-238). -/
def moduleExports : List String := ["createGets"]

/-- Modelled from the spec: the teardown API `remove_buffer(handle)` the
spec describes does not exist in src/index.js (its `module.exports` lists
only `createGets`); we model the described effect — deleting the handle's
entry from the registry — to examine what existing readers would then do. -/
def remove_buffer (fd : Nat) (w : World) : World :=
  ⟨w.heap, w.registry.filter (fun p => p.1 != fd)⟩

/-! ## The per-instance variant (src/index.js lines 9-96)

One buffer per reader, plus a fixed scratch chunk buffer.  `OFFSET` is the
number of valid unread bytes at the start of `BUFFER`; it is an `Int`
because `_string` computes `bytes - (index + 1)`, which the code lets go
negative.  The physical source is a plain byte list here, each read taking
`min(_chunk.length, remaining)` bytes. -/

structure PState where
  buffer : List Nat
  chunk : List Nat
  offset : Int
deriving Repr, DecidableEq

/-- First index of `x` in `l`, as `Buffer#indexOf` over the whole chunk
buffer (src/index.js line 84/91) — note: the *whole* buffer, including
bytes beyond the count the last read returned. -/
def listIndexOf (l : List Nat) (x : Nat) : Option Nat :=
  match l with
  | [] => none
  | a :: t => if a = x then some 0 else (listIndexOf t x).map (· + 1)

/-- JS `_grow(size)` (src/index.js lines 33-37): reallocate `BUFFER` to
`_sub2exp(size, BUFFER.length)` and copy the live region `[0, OFFSET)`. -/
def pGrow (st : PState) (size : Int) : PState :=
  { st with buffer := st.buffer.take st.offset.toNat ++
      List.replicate (_sub2exp size.toNat st.buffer.length - st.offset.toNat) 0 }

/-- JS `_string(index, bytes, offset)` (src/index.js lines 63-69). -/
def pString (enc : String) (st : PState) (index : Nat) (bytes offset : Int) :
    Line × PState :=
  (⟨enc, st.buffer.take (offset + index + 1).toNat⟩,
   { st with
      buffer := writeAt st.buffer 0 (bufSlice st.chunk (index + 1) bytes.toNat)
      offset := bytes - (index + 1) })

/-- JS `_string0()` (src/index.js lines 75-79): note no `undefined` case — at
end of stream with nothing pending this variant returns the empty string. -/
def pString0 (enc : String) (st : PState) : Line × PState :=
  (⟨enc, st.buffer.take st.offset.toNat⟩, { st with offset := 0 })

/-- The `while (true)` loop of the per-instance `gets` (src/index.js lines
88-94), reading via `_read(true)` (lines 44-49), compiled with structural
fuel: every iteration that loops consumes at least one byte of the stream,
so `stream.length + 1` iterations always suffice (the fuel-exhausted arm is
unreachable from `pLoop`). -/
def pLoopAux (enc : String) : Nat → PState → List Nat → Line × PState × List Nat
  | 0, st, stream => ((pString0 enc st).1, (pString0 enc st).2, stream)
  | fuel + 1, st, stream =>
      -- grow BUFFER if needed (`OFFSET + _chunk.length > BUFFER.length`)
      let st1 := if (st.buffer.length : Int) < st.offset + st.chunk.length
                 then pGrow st (st.offset + st.chunk.length) else st
      -- `_grow` never touches `_chunk`, so the read size is `st.chunk.length`
      let bytes := min st.chunk.length stream.length
      let st2 := { st1 with chunk := writeAt st1.chunk 0 (stream.take bytes) }
      -- `if (bytes) _chunk.copy(BUFFER, OFFSET, 0, bytes)`
      let st3 := if bytes ≠ 0
                 then { st2 with buffer := writeAt st2.buffer st2.offset.toNat (st2.chunk.take bytes) }
                 else st2
      let stream' := stream.drop bytes
      if bytes = 0 then
        ((pString0 enc st3).1, (pString0 enc st3).2, stream')
      else
        match listIndexOf st3.chunk 10 with
        | some index =>
            ((pString enc st3 index bytes st3.offset).1,
             (pString enc st3 index bytes st3.offset).2, stream')
        | none => pLoopAux enc fuel { st3 with offset := st3.offset + bytes } stream'

/-- The `while (true)` loop of the per-instance `gets`. -/
def pLoop (enc : String) (st : PState) (stream : List Nat) :
    Line × PState × List Nat :=
  pLoopAux enc (stream.length + 1) st stream

/-- One call of the per-instance `gets` closure (src/index.js lines 81-95):
the fast path copies the pending bytes into `_chunk` via `_read(false)`
(lines 50-53) and scans the whole chunk buffer for a delimiter. -/
def pGets (enc : String) (st : PState) (stream : List Nat) :
    Line × PState × List Nat :=
  if st.offset ≠ 0 then
    let data := (st.buffer.take st.offset.toNat).take st.chunk.length
    let st1 := { st with chunk := writeAt st.chunk 0 data }
    match listIndexOf st1.chunk 10 with
    | some index =>
        ((pString enc st1 index st1.offset 0).1,
         (pString enc st1 index st1.offset 0).2, stream)
    | none => pLoop enc st1 stream
  else pLoop enc st stream

/-- Run `n` successive calls of the per-instance `gets` closure. -/
def pCalls (enc : String) :
    Nat → PState → List Nat → List Line × PState × List Nat
  | 0, st, stream => ([], st, stream)
  | n + 1, st, stream =>
      match pGets enc st stream with
      | (l, st', stream') =>
          match pCalls enc n st' stream' with
          | (ls, st'', stream'') => (l :: ls, st'', stream'')

/-- The initial state of a per-instance reader (src/index.js lines 16-21). -/
def pInit (bufsize chunksize : Nat) : PState :=
  ⟨List.replicate (_sub2exp bufsize 1) 0, List.replicate (_sub2exp chunksize 1) 0, 0⟩

/-! ## Properties of `_sub2exp` -/

theorem _sub2expAux_spec (i : Nat) :
    ∀ (fuel j : Nat), 0 < j → i ≤ j * 2 ^ fuel →
      j ≤ _sub2expAux i j fuel ∧ i ≤ _sub2expAux i j fuel ∧
      (∃ t, _sub2expAux i j fuel = j * 2 ^ t) ∧
      (∀ t, i ≤ j * 2 ^ t → _sub2expAux i j fuel ≤ j * 2 ^ t) := by
  intro fuel
  induction fuel with
  | zero =>
      intro j hj hfit
      simp only [pow_zero, mul_one] at hfit
      refine ⟨le_refl _, hfit, ⟨0, by simp [_sub2expAux]⟩, ?_⟩
      intro t _
      have : j ≤ j * 2 ^ t := Nat.le_mul_of_pos_right j (Nat.pos_pow_of_pos t (by omega))
      simpa [_sub2expAux] using this
  | succ fuel ih =>
      intro j hj hfit
      by_cases hlt : j < i
      · have hj2 : 0 < j * 2 := by omega
        have hfit2 : i ≤ (j * 2) * 2 ^ fuel := by
          have : j * 2 ^ (fuel + 1) = (j * 2) * 2 ^ fuel := by ring
          omega
        obtain ⟨h1, h2, ⟨t, h3⟩, h4⟩ := ih (j * 2) hj2 hfit2
        have haux : _sub2expAux i j (fuel + 1) = _sub2expAux i (j * 2) fuel := by
          simp [_sub2expAux, hlt]
        refine ⟨by omega, by omega, ⟨t + 1, by rw [haux, h3]; ring⟩, ?_⟩
        intro u hu
        have hu1 : 1 ≤ u := by
          by_contra hu0
          interval_cases u
          simp at hu
          omega
        have : i ≤ (j * 2) * 2 ^ (u - 1) := by
          have : (j * 2) * 2 ^ (u - 1) = j * 2 ^ u := by
            have : u - 1 + 1 = u := by omega
            calc (j * 2) * 2 ^ (u - 1) = j * 2 ^ (u - 1 + 1) := by ring
            _ = j * 2 ^ u := by rw [‹u - 1 + 1 = u›]
          omega
        have := h4 (u - 1) this
        have heq : (j * 2) * 2 ^ (u - 1) = j * 2 ^ u := by
          have h5 : u - 1 + 1 = u := by omega
          calc (j * 2) * 2 ^ (u - 1) = j * 2 ^ (u - 1 + 1) := by ring
          _ = j * 2 ^ u := by rw [h5]
        rw [haux]
        omega
      · have haux : _sub2expAux i j (fuel + 1) = j := by
          simp [_sub2expAux, hlt]
        refine ⟨by omega, by omega, ⟨0, by simp [haux]⟩, ?_⟩
        intro t _
        have : j ≤ j * 2 ^ t := Nat.le_mul_of_pos_right j (Nat.pos_pow_of_pos t (by omega))
        omega

theorem _sub2exp_spec (i j : Nat) (hj : 0 < j) :
    j ≤ _sub2exp i j ∧ i ≤ _sub2exp i j ∧
    (∃ t, _sub2exp i j = j * 2 ^ t) ∧
    (∀ t, i ≤ j * 2 ^ t → _sub2exp i j ≤ j * 2 ^ t) := by
  unfold _sub2exp
  by_cases hlt : j < i
  · have hfit : i ≤ j * 2 ^ i := by
      have h1 : i < 2 ^ i := Nat.lt_two_pow i
      have h2 : 2 ^ i ≤ j * 2 ^ i := Nat.le_mul_of_pos_left _ hj
      omega
    simpa [hlt] using _sub2expAux_spec i i j hj hfit
  · refine ⟨by simp [hlt], by simp [hlt]; omega, ⟨0, by simp [hlt]⟩, ?_⟩
    intro t _
    have : j ≤ j * 2 ^ t := Nat.le_mul_of_pos_right j (Nat.pos_pow_of_pos t (by omega))
    simp [hlt]
    omega

theorem _sub2exp_ge (i j : Nat) (hj : 0 < j) : i ≤ _sub2exp i j :=
  (_sub2exp_spec i j hj).2.1

theorem _sub2exp_ge_base (i j : Nat) (hj : 0 < j) : j ≤ _sub2exp i j :=
  (_sub2exp_spec i j hj).1

theorem _sub2exp_pos (i j : Nat) (hj : 0 < j) : 0 < _sub2exp i j :=
  lt_of_lt_of_le hj (_sub2exp_ge_base i j hj)

theorem _sub2exp_pow2 (i : Nat) : ∃ t, _sub2exp i 1 = 2 ^ t := by
  obtain ⟨-, -, ⟨t, ht⟩, -⟩ := _sub2exp_spec i 1 (by omega)
  exact ⟨t, by simpa using ht⟩

theorem _sub2exp_min (i : Nat) : ∀ m, i ≤ 2 ^ m → _sub2exp i 1 ≤ 2 ^ m := by
  intro m hm
  obtain ⟨-, -, -, hmin⟩ := _sub2exp_spec i 1 (by omega)
  simpa using hmin m (by simpa using hm)

theorem _sub2exp_pow2_mul (i j : Nat) (hj : ∃ k, j = 2 ^ k) :
    ∃ t, _sub2exp i j = 2 ^ t := by
  obtain ⟨k, rfl⟩ := hj
  obtain ⟨-, -, ⟨t, ht⟩, -⟩ := _sub2exp_spec i (2 ^ k) (Nat.pos_pow_of_pos k (by omega))
  exact ⟨k + t, by rw [ht, pow_add]⟩

/-! ## Slice and write lemmas -/

theorem bufSlice_length {l : List Nat} {s e : Nat} (hse : s ≤ e) (hel : e ≤ l.length) :
    (bufSlice l s e).length = e - s := by
  simp [bufSlice]
  omega

theorem bufSlice_self (l : List Nat) (s : Nat) : bufSlice l s s = [] := by
  apply List.eq_nil_of_length_eq_zero
  simp [bufSlice]

theorem bufSlice_zero_len (l : List Nat) (e : Nat) : bufSlice l 0 e = l.take e := by
  simp [bufSlice]

theorem bufSlice_take {l : List Nat} {s e e' : Nat} (he : e' ≤ e) :
    bufSlice l s e' = (bufSlice l s e).take (e' - s) := by
  unfold bufSlice
  rw [List.drop_take, List.drop_take, List.take_take]
  have h : (e' - s) ⊓ (e - s) = e' - s := by omega
  rw [h]

theorem bufSlice_drop {l : List Nat} {s m e : Nat} (hsm : s ≤ m) :
    bufSlice l m e = (bufSlice l s e).drop (m - s) := by
  unfold bufSlice
  rw [List.drop_drop]
  congr 1
  omega

theorem bufSlice_split {l : List Nat} {s m e : Nat} (hsm : s ≤ m) (hme : m ≤ e) :
    bufSlice l s e = bufSlice l s m ++ bufSlice l m e := by
  rw [bufSlice_take hme, bufSlice_drop hsm, List.take_append_drop]

theorem writeAt_length {buf : List Nat} {p : Nat} (d : List Nat)
    (hp : p + d.length ≤ buf.length) :
    (writeAt buf p d).length = buf.length := by
  simp [writeAt]
  omega

theorem writeAt_nil (buf : List Nat) (p : Nat) (_hp : p ≤ buf.length) :
    writeAt buf p [] = buf := by
  simp [writeAt]

theorem writeAt_take {buf d : List Nat} {p : Nat} (hpl : p ≤ buf.length) :
    (writeAt buf p d).take p = buf.take p := by
  unfold writeAt
  have h1 : (buf.take p).length = p := by simp; omega
  rw [List.take_append_eq_append_take, List.take_append_eq_append_take, h1]
  have h2 : p - p = 0 := by omega
  rw [h2, List.take_zero, List.take_take]
  have h3 : p ⊓ p = p := by omega
  have h4 : (List.take p buf ++ d).length = p + d.length := by simp; omega
  have h5 : p - (p + d.length) = 0 := by omega
  rw [h3, h4, h5, List.take_zero, List.append_nil, List.append_nil]

theorem bufSlice_writeAt_left {buf d : List Nat} {p s e : Nat} (hep : e ≤ p)
    (hpl : p ≤ buf.length) :
    bufSlice (writeAt buf p d) s e = bufSlice buf s e := by
  unfold bufSlice
  congr 1
  have h1 : (writeAt buf p d).take e = ((writeAt buf p d).take p).take e := by
    rw [List.take_take]
    have : e ⊓ p = e := by omega
    rw [this]
  have h2 : buf.take e = (buf.take p).take e := by
    rw [List.take_take]
    have : e ⊓ p = e := by omega
    rw [this]
  rw [h1, h2, writeAt_take hpl]

theorem bufSlice_writeAt_data {buf d : List Nat} {p : Nat} (hpl : p ≤ buf.length) :
    bufSlice (writeAt buf p d) p (p + d.length) = d := by
  unfold bufSlice writeAt
  have h1 : (buf.take p).length = p := by simp; omega
  have h2 : ((buf.take p) ++ d).length = p + d.length := by simp; omega
  rw [List.take_append_eq_append_take, h2]
  have h3 : p + d.length - (p + d.length) = 0 := by omega
  rw [h3, List.take_zero, List.append_nil, List.take_of_length_le (le_of_eq h2)]
  rw [List.drop_append_eq_append_drop, h1]
  have h4 : p - p = 0 := by omega
  have h5 : List.drop p (List.take p buf) = [] :=
    List.drop_eq_nil_of_le (le_of_eq h1)
  rw [h5, h4, List.drop_zero, List.nil_append]

/-! ## Properties of `_find` -/

theorem _findAux_none {buf : List Nat} {x : Nat} :
    ∀ {fuel s : Nat}, _findAux buf x s fuel = none →
      ∀ t, s ≤ t → t < s + fuel → buf.getD t 0 ≠ x := by
  intro fuel
  induction fuel with
  | zero => intro s _ t h1 h2; omega
  | succ fuel ih =>
      intro s hfind t h1 h2
      unfold _findAux at hfind
      by_cases hs : buf.getD s 0 = x
      · rw [if_pos hs] at hfind
        exact Option.noConfusion hfind
      · rw [if_neg hs] at hfind
        rcases Nat.eq_or_lt_of_le h1 with rfl | hlt
        · exact hs
        · exact ih hfind t hlt (by omega)

theorem _findAux_some {buf : List Nat} {x : Nat} :
    ∀ {fuel s i : Nat}, _findAux buf x s fuel = some i →
      s ≤ i ∧ i < s + fuel ∧ buf.getD i 0 = x ∧
      ∀ t, s ≤ t → t < i → buf.getD t 0 ≠ x := by
  intro fuel
  induction fuel with
  | zero => intro s i h; simp [_findAux] at h
  | succ fuel ih =>
      intro s i hfind
      unfold _findAux at hfind
      by_cases hs : buf.getD s 0 = x
      · rw [if_pos hs] at hfind
        obtain rfl : s = i := Option.some_injective _ hfind
        exact ⟨le_refl _, by omega, hs, fun t h1 h2 => by omega⟩
      · rw [if_neg hs] at hfind
        obtain ⟨h1, h2, h3, h4⟩ := ih hfind
        refine ⟨by omega, by omega, h3, ?_⟩
        intro t ht1 ht2
        rcases Nat.eq_or_lt_of_le ht1 with rfl | hlt
        · exact hs
        · exact h4 t hlt ht2

theorem _find_none {buf : List Nat} {x s e : Nat} (h : _find buf x s e = none) :
    ∀ t, s ≤ t → t < e → buf.getD t 0 ≠ x := by
  intro t h1 h2
  exact _findAux_none h t h1 (by omega)

theorem _find_some {buf : List Nat} {x s e i : Nat} (h : _find buf x s e = some i) :
    s ≤ i ∧ i < e ∧ buf.getD i 0 = x ∧ ∀ t, s ≤ t → t < i → buf.getD t 0 ≠ x := by
  obtain ⟨h1, h2, h3, h4⟩ := _findAux_some h
  exact ⟨h1, by omega, h3, h4⟩

/-- Membership in a slice, in terms of `getD` (for in-range slices). -/
theorem mem_bufSlice {l : List Nat} {x s e : Nat} (hel : e ≤ l.length)
    (h : x ∈ bufSlice l s e) : ∃ t, s ≤ t ∧ t < e ∧ l.getD t 0 = x := by
  unfold bufSlice at h
  obtain ⟨u, hu, huget⟩ := List.getElem_of_mem h
  have hlen : ((l.take e).drop s).length = (l.take e).length - s := by simp
  have hlt : (l.take e).length = e := by simp; omega
  refine ⟨s + u, by omega, by omega, ?_⟩
  rw [List.getElem_drop] at huget
  rw [List.getElem_take] at huget
  rw [List.getD_eq_getElem l 0 (by omega)]
  exact huget

/-- The byte at index `t ∈ [s, e)` is in the slice `[s, e)`. -/
theorem bufSlice_mem {l : List Nat} {s e t : Nat} (h1 : s ≤ t) (h2 : t < e)
    (hel : e ≤ l.length) : l.getD t 0 ∈ bufSlice l s e := by
  unfold bufSlice
  have hlt : (l.take e).length = e := by simp; omega
  have hmem : t - s < ((l.take e).drop s).length := by simp; omega
  have : ((l.take e).drop s)[t - s] = l.getD t 0 := by
    rw [List.getElem_drop, List.getElem_take]
    · rw [List.getD_eq_getElem l 0 (by omega)]
      congr 1
      omega
  rw [← this]
  exact List.getElem_mem _

/-- Slice of width one, at an in-range index. -/
theorem bufSlice_singleton {l : List Nat} {i : Nat} (h : i < l.length) :
    bufSlice l i (i + 1) = [l.getD i 0] := by
  unfold bufSlice
  rw [List.take_succ]
  have h1 : (l.take i).length = i := by simp; omega
  rw [List.drop_append_eq_append_drop, h1]
  have h2 : List.drop i (l.take i) = [] := List.drop_eq_nil_of_le (le_of_eq h1)
  have h3 : i - i = 0 := by omega
  rw [h2, h3, List.drop_zero, List.nil_append]
  rw [List.getElem?_eq_getElem h, List.getD_eq_getElem l 0 h]
  rfl

/-- What a successful `_find` over an in-range window says about the
window's slice: it splits at the first delimiter. -/
theorem find_decomp {buf : List Nat} {s e i : Nat} (hel : e ≤ buf.length)
    (h : _find buf 10 s e = some i) :
    bufSlice buf s e = bufSlice buf s i ++ 10 :: bufSlice buf (i + 1) e ∧
    10 ∉ bufSlice buf s i ∧ s ≤ i ∧ i < e := by
  obtain ⟨h1, h2, h3, h4⟩ := _find_some h
  refine ⟨?_, ?_, h1, h2⟩
  · rw [bufSlice_split h1 (by omega : i ≤ e),
        bufSlice_split (by omega : i ≤ i + 1) (by omega : i + 1 ≤ e),
        bufSlice_singleton (by omega), h3]
    simp
  · intro hmem
    obtain ⟨t, ht1, ht2, ht3⟩ := mem_bufSlice (by omega) hmem
    exact h4 t ht1 ht2 ht3

/-- A failed `_find` over an in-range window: no delimiter in the slice. -/
theorem find_none_slice {buf : List Nat} {s e : Nat} (hel : e ≤ buf.length)
    (h : _find buf 10 s e = none) : 10 ∉ bufSlice buf s e := by
  intro hmem
  obtain ⟨t, ht1, ht2, ht3⟩ := mem_bufSlice hel hmem
  exact _find_none h t ht1 ht2 ht3

/-! ## Properties of the pre-read buffer adjustment -/

theorem _shift_spec {G : GState} (h : WF G) :
    (_shift G).buf.length = G.buf.length ∧ (_shift G).istart = 0 ∧
    (_shift G).offset = G.offset - G.istart ∧ pend (_shift G) = pend G ∧
    WF (_shift G) := by
  obtain ⟨h1, h2, h3⟩ := h
  have hlenS : (bufSlice G.buf G.istart G.offset).length = G.offset - G.istart :=
    bufSlice_length h1 h2
  have hlen : (_shift G).buf.length = G.buf.length := by
    simp [_shift, hlenS]
    omega
  refine ⟨hlen, rfl, rfl, ?_, ?_⟩
  · show bufSlice (_shift G).buf 0 (G.offset - G.istart) = pend G
    rw [bufSlice_zero_len]
    show (bufSlice G.buf G.istart G.offset ++
      G.buf.drop (G.offset - G.istart)).take (G.offset - G.istart) = _
    rw [List.take_append_eq_append_take, hlenS]
    have : G.offset - G.istart - (G.offset - G.istart) = 0 := by omega
    rw [this, List.take_zero, List.append_nil,
        List.take_of_length_le (le_of_eq hlenS)]
    rfl
  · refine ⟨?_, ?_, ?_⟩
    · show (0 : Nat) ≤ G.offset - G.istart
      omega
    · show G.offset - G.istart ≤ (_shift G).buf.length
      rw [hlen]
      omega
    · rw [hlen]
      omega

theorem _resize_spec {G : GState} (h : WF G) (atleast : Nat)
    (hat : G.offset ≤ atleast) :
    (_resize G atleast).buf.length = _sub2exp atleast G.buf.length ∧
    (_resize G atleast).istart = G.istart ∧
    (_resize G atleast).offset = G.offset ∧
    pend (_resize G atleast) = pend G ∧
    bufSlice (_resize G atleast).buf 0 G.offset = bufSlice G.buf 0 G.offset ∧
    atleast ≤ (_resize G atleast).buf.length ∧ WF (_resize G atleast) := by
  obtain ⟨h1, h2, h3⟩ := h
  have hge : atleast ≤ _sub2exp atleast G.buf.length := _sub2exp_ge _ _ h3
  have hgeL : G.buf.length ≤ _sub2exp atleast G.buf.length := _sub2exp_ge_base _ _ h3
  have htk : (G.buf.take G.offset).length = G.offset := by simp; omega
  have hlen : (_resize G atleast).buf.length = _sub2exp atleast G.buf.length := by
    simp [_resize]
    omega
  have hpre : (_resize G atleast).buf.take G.offset = G.buf.take G.offset := by
    show (G.buf.take G.offset ++ _).take G.offset = _
    exact List.take_left' htk
  have hpos : 0 < _sub2exp atleast G.buf.length := _sub2exp_pos _ _ h3
  refine ⟨hlen, rfl, rfl, ?_, ?_, by rw [hlen]; exact hge, ⟨h1, ?_, ?_⟩⟩
  case refine_3 =>
    show G.offset ≤ (_resize G atleast).buf.length
    rw [hlen]
    omega
  case refine_4 =>
    rw [hlen]
    omega
  · show bufSlice (_resize G atleast).buf G.istart G.offset = pend G
    unfold bufSlice pend bufSlice
    rw [hpre]
  · unfold bufSlice
    rw [hpre]

theorem _prepareGrow_spec {G1 : GState} (hWF : WF G1) (c : Nat) :
    WF (_prepareGrow c G1) ∧ pend (_prepareGrow c G1) = pend G1 ∧
    (_prepareGrow c G1).offset + c ≤ (_prepareGrow c G1).buf.length ∧
    (_prepareGrow c G1).istart = G1.istart ∧
    (_prepareGrow c G1).offset = G1.offset := by
  unfold _prepareGrow
  by_cases hg : G1.buf.length < G1.offset + c
  · obtain ⟨hlen', hi', ho', hpend', hpre', hat', hWF'⟩ :=
      _resize_spec hWF (G1.offset + c) (by omega)
    rw [if_pos hg]
    exact ⟨hWF', hpend', by omega, hi', ho'⟩
  · rw [if_neg hg]
    exact ⟨hWF, rfl, by omega, rfl, rfl⟩

theorem _prepare_spec {G : GState} (hWF : WF G) (c : Nat) :
    WF (_prepare c G) ∧ pend (_prepare c G) = pend G ∧
    (_prepare c G).offset + c ≤ (_prepare c G).buf.length ∧
    (_prepare c G).offset - (_prepare c G).istart = G.offset - G.istart ∧
    ((_prepare c G).istart = (_prepare c G).offset ↔ G.istart = G.offset) := by
  obtain ⟨h1, h2, h3⟩ := hWF
  unfold _prepare
  by_cases hc : G.buf.length < G.offset + c ∧ G.istart ≠ 0
  · obtain ⟨hlenS, hi0, ho, hpend, hWFS⟩ := _shift_spec ⟨h1, h2, h3⟩
    rw [if_pos hc]
    obtain ⟨hWF', hpend', hroom', hi', ho'⟩ := _prepareGrow_spec hWFS c
    refine ⟨hWF', by rw [hpend', hpend], hroom', ?_, ?_⟩
    · rw [hi', ho', hi0, ho]
      omega
    · rw [hi', ho', hi0, ho]
      omega
  · rw [if_neg hc]
    obtain ⟨hWF', hpend', hroom', hi', ho'⟩ := _prepareGrow_spec ⟨h1, h2, h3⟩ c
    refine ⟨hWF', hpend', hroom', ?_, ?_⟩
    · rw [hi', ho']
    · rw [hi', ho']

/-! ## The one-call specification of the read loop -/

/-- The `readSync` contract for a source: every physical read during the
run returns at least one byte (blocking semantics before end of stream)
and at most `chunksize` bytes. -/
def srcOK (c : Nat) (src : List (List Nat)) : Prop :=
  ∀ d ∈ src, d ≠ [] ∧ d.length ≤ c

theorem srcOK_tail {c : Nat} {d : List Nat} {rest : List (List Nat)}
    (h : srcOK c (d :: rest)) : srcOK c rest :=
  fun x hx => h x (List.mem_cons_of_mem d hx)

theorem srcOK_suffix {c : Nat} {s' src : List (List Nat)}
    (h : srcOK c src) (hs : s' <:+ src) : srcOK c s' :=
  fun x hx => h x (hs.subset hx)

theorem getsLoop_spec {c : Nat} {e : String} :
    ∀ {src : List (List Nat)} {G : GState} {r : Option Line} {G' : GState}
      {s' : List (List Nat)},
      WF G → srcOK c src → 10 ∉ pend G →
      getsLoop c e G src = (r, G', s') →
      WF G' ∧ s' <:+ src ∧
      ((r = none ∧ pend G = [] ∧ src = [] ∧ pend G' = [] ∧ s' = []) ∨
       (∃ l, r = some l ∧ l.enc = e ∧ l.bytes ≠ [] ∧
          l.bytes ++ (pend G' ++ s'.flatten) = pend G ++ src.flatten ∧
          ((∃ a, l.bytes = a ++ [10] ∧ 10 ∉ a) ∨
           (10 ∉ l.bytes ∧ pend G' = [] ∧ s' = [])))) := by
  intro src
  induction src with
  | nil =>
      intro G r G' s' hWF hsrc hnd heq
      obtain ⟨hWF1, hpend1, hroom1, hdiff1, hiff1⟩ := _prepare_spec hWF c
      simp only [getsLoop] at heq
      by_cases hG : (_prepare c G).istart = (_prepare c G).offset
      · rw [_string0, if_pos hG] at heq
        simp only [Prod.mk.injEq] at heq
        obtain ⟨rfl, rfl, rfl⟩ := heq
        have hpG : pend G = [] := by
          have : pend (_prepare c G) = [] := by
            unfold pend
            rw [hG]
            exact bufSlice_self _ _
          rw [← hpend1]
          exact this
        exact ⟨hWF1, List.suffix_refl _, Or.inl ⟨rfl, hpG, rfl, by rw [hpend1]; exact hpG, rfl⟩⟩
      · rw [_string0, if_neg hG] at heq
        simp only [Prod.mk.injEq] at heq
        obtain ⟨rfl, rfl, rfl⟩ := heq
        obtain ⟨hWF1a, hWF1b, hWF1c⟩ := hWF1
        refine ⟨⟨Nat.le_refl 0, Nat.zero_le _, hWF1c⟩, List.suffix_refl _,
          Or.inr ⟨_, rfl, rfl, ?_, ?_, ?_⟩⟩
        · show bufSlice (_prepare c G).buf (_prepare c G).istart (_prepare c G).offset ≠ []
          show pend (_prepare c G) ≠ []
          rw [hpend1]
          intro hcon
          apply hG
          rw [hiff1]
          have hlen := bufSlice_length hWF.1 hWF.2.1
          have hps : pend G = bufSlice G.buf G.istart G.offset := rfl
          rw [← hps, hcon] at hlen
          simp at hlen
          have hle := hWF.1
          omega
        · show (pend (_prepare c G)) ++ (pend ⟨(_prepare c G).buf, 0, 0⟩ ++ List.flatten []) = pend G ++ List.flatten []
          have hp0 : pend (⟨(_prepare c G).buf, 0, 0⟩ : GState) = [] := bufSlice_self _ _
          rw [hp0, hpend1]
          simp
        · right
          refine ⟨?_, bufSlice_self _ _, rfl⟩
          show 10 ∉ pend (_prepare c G)
          rw [hpend1]
          exact hnd
  | cons d rest ih =>
      intro G r G' s' hWF hsrc hnd heq
      obtain ⟨hdne, hdc⟩ := hsrc d (List.mem_cons_self d rest)
      obtain ⟨hWF1, hpend1, hroom1, hdiff1, hiff1⟩ := _prepare_spec hWF c
      have hdl : 0 < d.length := List.length_pos.mpr hdne
      simp only [getsLoop] at heq
      rw [if_neg (by omega : ¬((_prepare c G).offset + d.length = (_prepare c G).offset))] at heq
      obtain ⟨hWF1a, hWF1b, hWF1c⟩ := hWF1
      -- facts about the post-write state G2
      have hG2len : (writeAt (_prepare c G).buf (_prepare c G).offset d).length =
          (_prepare c G).buf.length := writeAt_length d (by omega)
      have hG2pend : bufSlice (writeAt (_prepare c G).buf (_prepare c G).offset d)
          (_prepare c G).istart (_prepare c G).offset =
          bufSlice (_prepare c G).buf (_prepare c G).istart (_prepare c G).offset :=
        bufSlice_writeAt_left (le_refl _) (by omega)
      have hG2data : bufSlice (writeAt (_prepare c G).buf (_prepare c G).offset d)
          (_prepare c G).offset ((_prepare c G).offset + d.length) = d :=
        bufSlice_writeAt_data (by omega)
      rcases hfind : _find (writeAt (_prepare c G).buf (_prepare c G).offset d) 10
          (_prepare c G).offset ((_prepare c G).offset + d.length) with _ | cutidx
      · -- no delimiter among the new bytes: keep looping
        rw [hfind] at heq
        have hWF3 : WF (⟨writeAt (_prepare c G).buf (_prepare c G).offset d,
            (_prepare c G).istart, (_prepare c G).offset + d.length⟩ : GState) := by
          refine ⟨?_, ?_, ?_⟩
          · show (_prepare c G).istart ≤ (_prepare c G).offset + d.length
            omega
          · show (_prepare c G).offset + d.length ≤
              (writeAt (_prepare c G).buf (_prepare c G).offset d).length
            rw [hG2len]
            omega
          · show 0 < (writeAt (_prepare c G).buf (_prepare c G).offset d).length
            rw [hG2len]
            omega
        have hpend3 : pend (⟨writeAt (_prepare c G).buf (_prepare c G).offset d,
            (_prepare c G).istart, (_prepare c G).offset + d.length⟩ : GState) =
            pend G ++ d := by
          show bufSlice _ (_prepare c G).istart ((_prepare c G).offset + d.length) = _
          rw [bufSlice_split hWF1a
            (by omega : (_prepare c G).offset ≤ (_prepare c G).offset + d.length)]
          rw [hG2pend, hG2data]
          rw [show bufSlice (_prepare c G).buf (_prepare c G).istart (_prepare c G).offset
            = pend (_prepare c G) from rfl, hpend1]
        have hnd3 : 10 ∉ pend (⟨writeAt (_prepare c G).buf (_prepare c G).offset d,
            (_prepare c G).istart, (_prepare c G).offset + d.length⟩ : GState) := by
          rw [hpend3]
          intro hmem
          rcases List.mem_append.mp hmem with hmem | hmem
          · exact hnd hmem
          · have : 10 ∈ bufSlice (writeAt (_prepare c G).buf (_prepare c G).offset d)
                (_prepare c G).offset ((_prepare c G).offset + d.length) := by
              rw [hG2data]; exact hmem
            exact find_none_slice (by omega) hfind this
        obtain ⟨ihWF, ihsfx, ihcases⟩ := ih hWF3 (srcOK_tail hsrc) hnd3 heq
        refine ⟨ihWF, ihsfx.trans (List.suffix_cons d rest), ?_⟩
        rcases ihcases with ⟨hr, hpend0, hrest0, hpend', hs'⟩ | ⟨l, hr, henc, hne, heqn, hshape⟩
        · rw [hpend3] at hpend0
          exact absurd hpend0 (by simp [hdne])
        · refine Or.inr ⟨l, hr, henc, hne, ?_, hshape⟩
          rw [heqn, hpend3]
          simp
      · -- delimiter found among the new bytes
        rw [hfind] at heq
        simp only [_string] at heq
        simp only [Prod.mk.injEq] at heq
        obtain ⟨rfl, rfl, rfl⟩ := heq
        obtain ⟨hA, hAnd, hci1, hci2⟩ := find_decomp (by omega) hfind
        have hsplit : bufSlice (writeAt (_prepare c G).buf (_prepare c G).offset d)
            (_prepare c G).istart (cutidx + 1) =
            pend G ++ (bufSlice (writeAt (_prepare c G).buf (_prepare c G).offset d)
              (_prepare c G).offset cutidx ++ [10]) := by
          rw [bufSlice_split hWF1a (by omega : (_prepare c G).offset ≤ cutidx + 1)]
          rw [hG2pend,
            show bufSlice (_prepare c G).buf (_prepare c G).istart (_prepare c G).offset
              = pend (_prepare c G) from rfl, hpend1]
          congr 1
          rw [bufSlice_split (by omega : (_prepare c G).offset ≤ cutidx)
            (by omega : cutidx ≤ cutidx + 1)]
          congr 1
          rw [bufSlice_singleton (by omega)]
          have := (_find_some hfind).2.2.1
          rw [this]
        have hrem : bufSlice (writeAt (_prepare c G).buf (_prepare c G).offset d)
            (cutidx + 1) ((_prepare c G).offset + d.length) =
            (bufSlice (writeAt (_prepare c G).buf (_prepare c G).offset d)
              (_prepare c G).offset ((_prepare c G).offset + d.length)).drop
              (cutidx + 1 - (_prepare c G).offset) :=
          bufSlice_drop (by omega)
        refine ⟨⟨show cutidx + 1 ≤ (_prepare c G).offset + d.length by omega,
          show (_prepare c G).offset + d.length ≤
            (writeAt (_prepare c G).buf (_prepare c G).offset d).length by
              rw [hG2len]; omega,
          show 0 < (writeAt (_prepare c G).buf (_prepare c G).offset d).length by
              rw [hG2len]; omega⟩,
          List.suffix_cons d rest, Or.inr ⟨_, rfl, rfl, ?_, ?_, Or.inl ⟨pend G ++
            bufSlice (writeAt (_prepare c G).buf (_prepare c G).offset d)
              (_prepare c G).offset cutidx, by rw [hsplit, List.append_assoc], ?_⟩⟩⟩
        · rw [hsplit]
          simp
        · show bufSlice _ (_prepare c G).istart (cutidx + 1) ++
            (bufSlice _ (cutidx + 1) ((_prepare c G).offset + d.length) ++ rest.flatten) =
            pend G ++ (d :: rest).flatten
          rw [hsplit, hrem, hG2data]
          have hd' : d = bufSlice (writeAt (_prepare c G).buf (_prepare c G).offset d)
              (_prepare c G).offset cutidx ++ 10 ::
              (d.drop (cutidx + 1 - (_prepare c G).offset)) := by
            conv_lhs => rw [← hG2data]
            rw [hA, hrem, hG2data]
          conv_rhs => rw [List.flatten_cons, hd']
          simp [List.append_assoc]
        · intro hmem
          rcases List.mem_append.mp hmem with hmem | hmem
          · exact hnd hmem
          · exact hAnd hmem

theorem getsCall_spec {c : Nat} {e : String} {src : List (List Nat)} {G : GState}
    {r : Option Line} {G' : GState} {s' : List (List Nat)}
    (hWF : WF G) (hsrc : srcOK c src)
    (heq : getsCall c e G src = (r, G', s')) :
    WF G' ∧ s' <:+ src ∧
    ((r = none ∧ pend G ++ src.flatten = [] ∧ pend G' ++ s'.flatten = []) ∨
     (∃ l, r = some l ∧ l.enc = e ∧ l.bytes ≠ [] ∧
        l.bytes ++ (pend G' ++ s'.flatten) = pend G ++ src.flatten ∧
        ((∃ a, l.bytes = a ++ [10] ∧ 10 ∉ a) ∨
         (10 ∉ l.bytes ∧ pend G' ++ s'.flatten = [])))) := by
  unfold getsCall at heq
  by_cases hG : G.istart = G.offset
  · rw [if_pos hG] at heq
    have hpG : pend G = [] := by
      unfold pend
      rw [hG]
      exact bufSlice_self _ _
    have hnd : (10 : Nat) ∉ pend G := by rw [hpG]; exact List.not_mem_nil 10
    obtain ⟨hWF', hsfx, hcases⟩ := getsLoop_spec hWF hsrc hnd heq
    refine ⟨hWF', hsfx, ?_⟩
    rcases hcases with ⟨hr, hp0, hsrc0, hp', hs'0⟩ | ⟨l, hr, henc, hne, heqn, hshape⟩
    · exact Or.inl ⟨hr, by rw [hp0, hsrc0]; rfl, by rw [hp', hs'0]; rfl⟩
    · refine Or.inr ⟨l, hr, henc, hne, heqn, ?_⟩
      rcases hshape with h | ⟨hnd', hp', hs'0⟩
      · exact Or.inl h
      · exact Or.inr ⟨hnd', by rw [hp', hs'0]; rfl⟩
  · rw [if_neg hG] at heq
    obtain ⟨h1, h2, h3⟩ := hWF
    rcases hfind : _find G.buf 10 G.istart G.offset with _ | cutidx
    · rw [hfind] at heq
      have hnd : (10 : Nat) ∉ pend G := find_none_slice h2 hfind
      obtain ⟨hWF', hsfx, hcases⟩ := getsLoop_spec ⟨h1, h2, h3⟩ hsrc hnd heq
      refine ⟨hWF', hsfx, ?_⟩
      rcases hcases with ⟨hr, hp0, hsrc0, hp', hs'0⟩ | ⟨l, hr, henc, hne, heqn, hshape⟩
      · exact Or.inl ⟨hr, by rw [hp0, hsrc0]; rfl, by rw [hp', hs'0]; rfl⟩
      · refine Or.inr ⟨l, hr, henc, hne, heqn, ?_⟩
        rcases hshape with h | ⟨hnd', hp', hs'0⟩
        · exact Or.inl h
        · exact Or.inr ⟨hnd', by rw [hp', hs'0]; rfl⟩
    · rw [hfind] at heq
      simp only [_string, Prod.mk.injEq] at heq
      obtain ⟨rfl, rfl, rfl⟩ := heq
      obtain ⟨hA, hAnd, hci1, hci2⟩ := find_decomp h2 hfind
      have hline : bufSlice G.buf G.istart (cutidx + 1) =
          bufSlice G.buf G.istart cutidx ++ [10] := by
        rw [bufSlice_split hci1 (by omega : cutidx ≤ cutidx + 1)]
        congr 1
        rw [bufSlice_singleton (by omega)]
        rw [(_find_some hfind).2.2.1]
      have hpend' : pend ({ G with istart := cutidx + 1, offset := G.offset } : GState) =
          bufSlice G.buf (cutidx + 1) G.offset := rfl
      refine ⟨⟨show cutidx + 1 ≤ G.offset by omega,
        show G.offset ≤ G.buf.length from h2, h3⟩, List.suffix_refl _,
        Or.inr ⟨_, rfl, rfl, ?_, ?_, Or.inl ⟨bufSlice G.buf G.istart cutidx, hline, hAnd⟩⟩⟩
      · rw [hline]
        simp
      · show bufSlice G.buf G.istart (cutidx + 1) ++
          (pend ({ G with istart := cutidx + 1, offset := G.offset } : GState) ++ src.flatten) =
          pend G ++ src.flatten
        rw [hpend', hline]
        have : pend G = bufSlice G.buf G.istart cutidx ++ 10 ::
            bufSlice G.buf (cutidx + 1) G.offset := hA
        rw [this]
        simp

/-! ## Termination of the repeated-call driver -/

theorem getsLoop_sfx {c : Nat} {e : String} :
    ∀ {src : List (List Nat)} {G : GState} {r : Option Line} {G' : GState}
      {s' : List (List Nat)},
      getsLoop c e G src = (r, G', s') → s' <:+ src := by
  intro src
  induction src with
  | nil =>
      intro G r G' s' h
      unfold getsLoop at h
      simp only [Prod.mk.injEq] at h
      obtain ⟨-, -, rfl⟩ := h
      exact List.suffix_refl _
  | cons d rest ih =>
      intro G r G' s' h
      unfold getsLoop at h
      by_cases hbe : (_prepare c G).offset + d.length = (_prepare c G).offset
      · rw [if_pos hbe] at h
        simp only [Prod.mk.injEq] at h
        obtain ⟨-, -, rfl⟩ := h
        exact (List.suffix_cons d rest)
      · rw [if_neg hbe] at h
        rcases hf : _find (writeAt (_prepare c G).buf (_prepare c G).offset d) 10
            (_prepare c G).offset ((_prepare c G).offset + d.length) with _ | cutidx
        · rw [hf] at h
          exact (ih h).trans (List.suffix_cons d rest)
        · rw [hf] at h
          simp only [Prod.mk.injEq] at h
          obtain ⟨-, -, rfl⟩ := h
          exact List.suffix_cons d rest

theorem getsLoop_cons_sfx {c : Nat} {e : String} {d : List Nat}
    {rest : List (List Nat)} {G : GState} {r : Option Line} {G' : GState}
    {s' : List (List Nat)}
    (h : getsLoop c e G (d :: rest) = (r, G', s')) : s' <:+ rest := by
  unfold getsLoop at h
  by_cases hbe : (_prepare c G).offset + d.length = (_prepare c G).offset
  · rw [if_pos hbe] at h
    simp only [Prod.mk.injEq] at h
    obtain ⟨-, -, rfl⟩ := h
    exact List.suffix_refl _
  · rw [if_neg hbe] at h
    rcases hf : _find (writeAt (_prepare c G).buf (_prepare c G).offset d) 10
        (_prepare c G).offset ((_prepare c G).offset + d.length) with _ | cutidx
    · rw [hf] at h
      exact getsLoop_sfx h
    · rw [hf] at h
      simp only [Prod.mk.injEq] at h
      obtain ⟨-, -, rfl⟩ := h
      exact List.suffix_refl _

/-- Cursor state preserved by `_prepare` when nothing is pending (no
well-formedness needed: `Nat` subtraction caps at zero). -/
theorem _prepare_cursor_eq {c : Nat} {G : GState} (hG : G.istart = G.offset) :
    (_prepare c G).istart = (_prepare c G).offset := by
  unfold _prepare _prepareGrow
  by_cases h1 : G.buf.length < G.offset + c ∧ G.istart ≠ 0
  · rw [if_pos h1]
    have hsh : (_shift G).istart = (_shift G).offset := by
      show 0 = G.offset - G.istart
      omega
    by_cases h2 : (_shift G).buf.length < (_shift G).offset + c
    · rw [if_pos h2]
      exact hsh
    · rw [if_neg h2]
      exact hsh
  · rw [if_neg h1]
    by_cases h2 : G.buf.length < G.offset + c
    · rw [if_pos h2]
      exact hG
    · rw [if_neg h2]
      exact hG

/-- The measure that shrinks on every call returning a line. -/
def gmeasure (G : GState) : Nat :=
  (G.offset - G.istart) + (if G.istart = G.offset then 0 else 1)

theorem getsCall_dec {c : Nat} {e : String} {src : List (List Nat)} {G : GState}
    {l : Line} {G' : GState} {s' : List (List Nat)}
    (h : getsCall c e G src = (some l, G', s')) :
    s'.length < src.length ∨
    (s'.length = src.length ∧ gmeasure G' < gmeasure G) := by
  unfold getsCall at h
  by_cases hG : G.istart = G.offset
  · rw [if_pos hG] at h
    cases src with
    | nil =>
        exfalso
        simp only [getsLoop] at h
        have hcur := _prepare_cursor_eq (c := c) hG
        rw [_string0, if_pos hcur] at h
        simp at h
    | cons d rest =>
        have := getsLoop_cons_sfx h
        have := this.length_le
        simp only [List.length_cons]
        omega
  · rw [if_neg hG] at h
    rcases hf : _find G.buf 10 G.istart G.offset with _ | cutidx
    · rw [hf] at h
      cases src with
      | nil =>
          simp only [getsLoop] at h
          by_cases hcur : (_prepare c G).istart = (_prepare c G).offset
          · rw [_string0, if_pos hcur] at h
            simp at h
          · rw [_string0, if_neg hcur] at h
            simp only [Prod.mk.injEq] at h
            obtain ⟨-, rfl, rfl⟩ := h
            refine Or.inr ⟨rfl, ?_⟩
            show (0 - 0) + (if (0 : Nat) = 0 then 0 else 1) < gmeasure G
            rw [if_pos rfl]
            unfold gmeasure
            rw [if_neg hG]
            omega
      | cons d rest =>
          have := (getsLoop_cons_sfx h).length_le
          simp only [List.length_cons]
          omega
    · rw [hf] at h
      simp only [_string, Prod.mk.injEq] at h
      obtain ⟨-, rfl, rfl⟩ := h
      obtain ⟨hs, ho, -, -⟩ := _find_some hf
      refine Or.inr ⟨rfl, ?_⟩
      show (G.offset - (cutidx + 1)) +
        (if cutidx + 1 = G.offset then 0 else 1) < gmeasure G
      unfold gmeasure
      rw [if_neg hG]
      by_cases hco : cutidx + 1 = G.offset
      · rw [if_pos hco]
        omega
      · rw [if_neg hco]
        omega

set_option linter.unusedVariables false in
/-- Repeatedly call `gets` until it reports end of stream, collecting the
returned lines in order. -/
def getsAll (c : Nat) (e : String) (G : GState) (src : List (List Nat)) :
    List Line :=
  match h : getsCall c e G src with
  | (none, _, _) => []
  | (some l, G', s') => l :: getsAll c e G' s'
termination_by (src.length, gmeasure G)
decreasing_by
  rcases getsCall_dec h with h1 | ⟨h1, h2⟩
  · exact Prod.Lex.left _ _ h1
  · rw [h1]
    exact Prod.Lex.right _ h2

theorem getsAll_nil {c : Nat} {e : String} {G : GState} {src : List (List Nat)}
    {G' : GState} {s' : List (List Nat)}
    (h : getsCall c e G src = (none, G', s')) : getsAll c e G src = [] := by
  unfold getsAll
  rw [h]

theorem getsAll_cons {c : Nat} {e : String} {G : GState} {src : List (List Nat)}
    {l : Line} {G' : GState} {s' : List (List Nat)}
    (h : getsCall c e G src = (some l, G', s')) :
    getsAll c e G src = l :: getsAll c e G' s' := by
  conv_lhs => unfold getsAll
  rw [h]

/-- The full-run specification of the shared-buffer reader: starting from a
well-formed state, the returned lines concatenate to the pending bytes plus
the entire remaining stream, each line carries the configured encoding and
is non-empty, and the number of lines is the number of delimiters plus one
for a trailing partial line (omitted when the content ends at a delimiter
or is empty). -/
theorem getsAll_spec {c : Nat} {e : String} :
    ∀ (G : GState) (src : List (List Nat)), WF G → srcOK c src →
    ((getsAll c e G src).map Line.bytes).flatten = pend G ++ src.flatten ∧
    (∀ l ∈ getsAll c e G src, l.enc = e ∧ l.bytes ≠ []) ∧
    (getsAll c e G src).length = (pend G ++ src.flatten).count 10 +
      (if (pend G ++ src.flatten).getLast? = some 10 ∨ pend G ++ src.flatten = []
       then 0 else 1) := by
  intro G src
  induction G, src using getsAll.induct c e with
  | case1 G src G0 s0 hstep =>
      intro hWF hsrc
      obtain ⟨hWF', hsfx, hcases⟩ := getsCall_spec hWF hsrc hstep
      rcases hcases with ⟨-, hc0, -⟩ | ⟨l, hl, -⟩
      · rw [getsAll_nil hstep, hc0]
        simp
      · exact absurd hl (by simp)
  | case2 G src l G' s' hstep ih =>
      intro hWF hsrc
      obtain ⟨hWF', hsfx, hcases⟩ := getsCall_spec hWF hsrc hstep
      rcases hcases with ⟨hl, -, -⟩ | ⟨l', hl, henc, hne, heqn, hshape⟩
      · exact absurd hl (by simp)
      obtain rfl : l' = l := by injection hl with h'; exact h'.symm
      obtain ⟨ihflat, ihmem, ihlen⟩ := ih hWF' (srcOK_suffix hsrc hsfx)
      rw [getsAll_cons hstep]
      refine ⟨?_, ?_, ?_⟩
      · simp only [List.map_cons, List.flatten_cons]
        rw [ihflat, ← List.append_assoc]
        rw [← heqn]
        simp [List.append_assoc]
      · intro x hx
        rcases List.mem_cons.mp hx with rfl | hx
        · exact ⟨henc, hne⟩
        · exact ihmem x hx
      · simp only [List.length_cons]
        rw [ihlen, ← heqn]
        rcases hshape with ⟨a, hab, hand⟩ | ⟨hnd, hrest⟩
        · -- the line ends at the first delimiter of the content
          have hcnt : List.count 10 (l'.bytes ++ (pend G' ++ s'.flatten)) =
              List.count 10 (pend G' ++ s'.flatten) + 1 := by
            rw [List.count_append, hab, List.count_append]
            have ha0 : List.count 10 a = 0 := List.count_eq_zero.mpr hand
            simp [ha0]
            omega
          rw [hcnt]
          by_cases hr0 : pend G' ++ s'.flatten = []
          · rw [hr0]
            have hlast : (l'.bytes ++ ([] : List Nat)).getLast? = some 10 := by
              rw [List.append_nil, hab, List.getLast?_concat]
            rw [if_pos (Or.inl hlast)]
            simp
          · have hlast : (l'.bytes ++ (pend G' ++ s'.flatten)).getLast? =
                (pend G' ++ s'.flatten).getLast? := by
              rw [List.getLast?_append]
              rcases hx : (pend G' ++ s'.flatten).getLast? with _ | x
              · rw [List.getLast?_eq_none_iff] at hx
                exact absurd hx hr0
              · rfl
            rw [hlast]
            have hne2 : ¬(l'.bytes ++ (pend G' ++ s'.flatten) = []) := by
              intro h0
              exact hr0 (List.append_eq_nil.mp h0).2
            by_cases hA : (pend G' ++ s'.flatten).getLast? = some 10
            · rw [if_pos (Or.inl hA), if_pos (Or.inl hA)]
            · have hc1 : ¬((pend G' ++ s'.flatten).getLast? = some 10 ∨
                  pend G' ++ s'.flatten = []) := by
                rintro (h | h)
                · exact hA h
                · exact hr0 h
              have hc2 : ¬((pend G' ++ s'.flatten).getLast? = some 10 ∨
                  l'.bytes ++ (pend G' ++ s'.flatten) = []) := by
                rintro (h | h)
                · exact hA h
                · exact hne2 h
              rw [if_neg hc1, if_neg hc2]
        · -- trailing partial line: no delimiter, nothing remains after it
          rw [hrest, List.append_nil]
          have hcnt : List.count 10 l'.bytes = 0 := List.count_eq_zero.mpr hnd
          rw [hcnt]
          have hlast : ¬(l'.bytes.getLast? = some 10 ∨ l'.bytes = []) := by
            rintro (h | h)
            · exact hnd (List.mem_of_mem_getLast? (by rw [h]; rfl))
            · exact hne h
          rw [if_neg hlast]
          simp

/-! ## Preservation of the cursor invariant (arbitrary read sizes) -/

theorem _string0_WF {e : String} {G : GState} (hWF : WF G) :
    WF (_string0 e G).2 := by
  unfold _string0
  by_cases h : G.istart = G.offset
  · rw [if_pos h]
    exact hWF
  · rw [if_neg h]
    exact ⟨Nat.le_refl 0, Nat.zero_le _, hWF.2.2⟩

theorem getsLoop_WF {c : Nat} {e : String} :
    ∀ {src : List (List Nat)} {G : GState},
      WF G → (∀ d ∈ src, d.length ≤ c) →
      WF (getsLoop c e G src).2.1 ∧ (getsLoop c e G src).2.2 <:+ src := by
  intro src
  induction src with
  | nil =>
      intro G hWF _
      obtain ⟨hWF1, -, -, -, -⟩ := _prepare_spec hWF c
      exact ⟨_string0_WF hWF1, List.suffix_refl _⟩
  | cons d rest ih =>
      intro G hWF hsrc
      obtain ⟨hWF1, -, hroom1, -, -⟩ := _prepare_spec hWF c
      obtain ⟨hWF1a, hWF1b, hWF1c⟩ := hWF1
      have hdc : d.length ≤ c := hsrc d (List.mem_cons_self d rest)
      have hG2len : (writeAt (_prepare c G).buf (_prepare c G).offset d).length =
          (_prepare c G).buf.length := writeAt_length d (by omega)
      have hWF2 : WF (⟨writeAt (_prepare c G).buf (_prepare c G).offset d,
          (_prepare c G).istart, (_prepare c G).offset⟩ : GState) := by
        refine ⟨hWF1a, ?_, ?_⟩
        · show (_prepare c G).offset ≤
            (writeAt (_prepare c G).buf (_prepare c G).offset d).length
          rw [hG2len]
          omega
        · show 0 < (writeAt (_prepare c G).buf (_prepare c G).offset d).length
          rw [hG2len]
          omega
      simp only [getsLoop]
      by_cases hbe : (_prepare c G).offset + d.length = (_prepare c G).offset
      · rw [if_pos hbe]
        exact ⟨_string0_WF hWF2, (List.suffix_refl rest).trans (List.suffix_cons d rest)⟩
      · rw [if_neg hbe]
        rcases hf : _find (writeAt (_prepare c G).buf (_prepare c G).offset d) 10
            (_prepare c G).offset ((_prepare c G).offset + d.length) with _ | cutidx
        · have hWF3 : WF (⟨writeAt (_prepare c G).buf (_prepare c G).offset d,
              (_prepare c G).istart, (_prepare c G).offset + d.length⟩ : GState) := by
            refine ⟨?_, ?_, ?_⟩
            · show (_prepare c G).istart ≤ (_prepare c G).offset + d.length
              omega
            · show (_prepare c G).offset + d.length ≤
                (writeAt (_prepare c G).buf (_prepare c G).offset d).length
              rw [hG2len]
              omega
            · show 0 < (writeAt (_prepare c G).buf (_prepare c G).offset d).length
              rw [hG2len]
              omega
          obtain ⟨ihWF, ihsfx⟩ := ih hWF3 (fun x hx => hsrc x (List.mem_cons_of_mem d hx))
          exact ⟨ihWF, ihsfx.trans (List.suffix_cons d rest)⟩
        · obtain ⟨hs, ho, -, -⟩ := _find_some hf
          refine ⟨⟨?_, ?_, ?_⟩, List.suffix_cons d rest⟩
          · show cutidx + 1 ≤ (_prepare c G).offset + d.length
            omega
          · show (_prepare c G).offset + d.length ≤
              (writeAt (_prepare c G).buf (_prepare c G).offset d).length
            rw [hG2len]
            omega
          · show 0 < (writeAt (_prepare c G).buf (_prepare c G).offset d).length
            rw [hG2len]
            omega

theorem getsCall_WF {c : Nat} {e : String} {src : List (List Nat)} {G : GState}
    (hWF : WF G) (hsrc : ∀ d ∈ src, d.length ≤ c) :
    WF (getsCall c e G src).2.1 ∧ (getsCall c e G src).2.2 <:+ src := by
  unfold getsCall
  by_cases hG : G.istart = G.offset
  · rw [if_pos hG]
    exact getsLoop_WF hWF hsrc
  · rw [if_neg hG]
    rcases hf : _find G.buf 10 G.istart G.offset with _ | cutidx
    · exact getsLoop_WF hWF hsrc
    · obtain ⟨hs, ho, -, -⟩ := _find_some hf
      refine ⟨⟨?_, hWF.2.1, hWF.2.2⟩, List.suffix_refl _⟩
      show cutidx + 1 ≤ G.offset
      omega

/-! ## Claim theorems -/

instance (c : Nat) (src : List (List Nat)) : Decidable (srcOK c src) := by
  unfold srcOK; infer_instance

/-- The pre-read adjustment never increases `offset` (compaction can only
shrink it; growth keeps it), with no well-formedness needed. -/
theorem _prepare_offset_le (c : Nat) (G : GState) :
    (_prepare c G).offset ≤ G.offset := by
  unfold _prepare _prepareGrow
  by_cases h1 : G.buf.length < G.offset + c ∧ G.istart ≠ 0
  · rw [if_pos h1]
    by_cases h2 : (_shift G).buf.length < (_shift G).offset + c
    · rw [if_pos h2]
      show G.offset - G.istart ≤ G.offset
      omega
    · rw [if_neg h2]
      show G.offset - G.istart ≤ G.offset
      omega
  · rw [if_neg h1]
    by_cases h2 : G.buf.length < G.offset + c
    · rw [if_pos h2]
      exact Nat.le_refl _
    · rw [if_neg h2]

/-- At end of stream with nothing pending, a call returns the sentinel and
leaves the cursors equal (the state is only adjusted by `_prepare`). -/
theorem getsCall_sentinel {c : Nat} {e : String} {G : GState}
    (hG : G.istart = G.offset) :
    getsCall c e G [] = (none, _prepare c G, []) := by
  unfold getsCall
  rw [if_pos hG]
  simp only [getsLoop]
  rw [_string0, if_pos (_prepare_cursor_eq hG)]

/-- Claim C2 (confirmed): when a physical read returns zero bytes, the
reader returns the decoded remainder `[istart, offset)` as a final partial
line and resets both cursors to `0`; with nothing pending it returns the
end-of-stream sentinel (`undefined`, modelled `none`); an empty input
yields the sentinel on the very first call; and once the cursors are equal
at end of stream, every subsequent call yields the sentinel again.  The
parts that run the pre-read adjustment carry `offset + chunk_size ≤ 2^30`,
the domain on which the model's `_sub2exp` is faithful to the JS loop
(beyond it the source diverges on the Int32 `<<` wrap before the zero-byte
read can happen). -/
theorem eof_returns_partial_then_sentinel (c : Nat) (e : String) :
    (∀ G : GState, G.istart = G.offset → _string0 e G = (none, G)) ∧
    (∀ G : GState, G.istart ≠ G.offset →
       _string0 e G = (some ⟨e, bufSlice G.buf G.istart G.offset⟩,
         { G with istart := 0, offset := 0 })) ∧
    (∀ G : GState, WF G → 10 ∉ pend G → G.istart ≠ G.offset →
       G.offset + c ≤ 2 ^ 30 →
       getsLoop c e G [] = (some ⟨e, pend G⟩, ⟨(_prepare c G).buf, 0, 0⟩, [])) ∧
    (∀ cap : Nat, c ≤ 2 ^ 30 →
       getsCall c e ⟨List.replicate cap 0, 0, 0⟩ [] =
       (none, _prepare c ⟨List.replicate cap 0, 0, 0⟩, [])) ∧
    (∀ (G : GState) (n : Nat), G.istart = G.offset → G.offset + c ≤ 2 ^ 30 →
       ∀ r ∈ (getsCalls c e n G []).1, r = none) := by
  refine ⟨?_, ?_, ?_, ?_, ?_⟩
  · intro G hG
    unfold _string0
    rw [if_pos hG]
  · intro G hG
    unfold _string0
    rw [if_neg hG]
  · intro G hWF hnd hne _hbound
    obtain ⟨hWF1, hpend1, -, -, hiff1⟩ := _prepare_spec hWF c
    have hne' : (_prepare c G).istart ≠ (_prepare c G).offset :=
      fun h => hne (hiff1.mp h)
    simp only [getsLoop]
    rw [_string0, if_neg hne']
    rw [show bufSlice (_prepare c G).buf (_prepare c G).istart (_prepare c G).offset
      = pend G from hpend1]
  · intro cap _hc
    exact getsCall_sentinel rfl
  · intro G n
    induction n generalizing G with
    | zero =>
        intro hG _hbound r hr
        simp [getsCalls] at hr
    | succ n ih =>
        intro hG _hbound r hr
        simp only [getsCalls] at hr
        rw [getsCall_sentinel hG] at hr
        rcases hmem : (getsCalls c e n (_prepare c G) []) with ⟨rs, G'', s''⟩
        rw [hmem] at hr
        simp only [List.mem_cons] at hr
        rcases hr with rfl | hr
        · rfl
        · have hle := _prepare_offset_le c G
          have := ih (_prepare c G) (_prepare_cursor_eq hG) (by omega) r
          rw [hmem] at this
          exact this hr

/-- Witness for C2 at concrete inputs. -/
theorem eof_returns_partial_then_sentinel_witness :
    _string0 "utf-8" (⟨[97, 0], 0, 1⟩ : GState) =
      (some ⟨"utf-8", [97]⟩, ⟨[97, 0], 0, 0⟩) ∧
    getsLoop 1 "utf-8" (⟨[97, 0], 0, 1⟩ : GState) [] =
      (some ⟨"utf-8", pend ⟨[97, 0], 0, 1⟩⟩,
       ⟨(_prepare 1 ⟨[97, 0], 0, 1⟩).buf, 0, 0⟩, []) ∧
    getsCall 1 "utf-8" (⟨List.replicate 4 0, 0, 0⟩ : GState) [] =
      (none, _prepare 1 ⟨List.replicate 4 0, 0, 0⟩, []) := by
  have h := eof_returns_partial_then_sentinel 1 "utf-8"
  refine ⟨?_, h.2.2.1 ⟨[97, 0], 0, 1⟩ (by decide) (by decide) (by decide)
      (by decide),
    h.2.2.2.1 4 (by decide)⟩
  have h2 := h.2.1 ⟨[97, 0], 0, 1⟩ (by decide)
  rw [h2]
  decide

/-- Claim C3 (confirmed): for input bytes `"ab\ncd\ne"` read in chunks of
`chunk_size = 2` with `buffer_size = 4` (capacity `_sub2exp 4 = 4`),
successive calls return `"ab\n"`, `"cd\n"`, `"e"`, then the end-of-stream
sentinel, and the sentinel again on the next call. -/
theorem concrete_scenario_two_lines_partial :
    (getsCalls 2 "utf-8" 5 ⟨List.replicate (_sub2exp 4 1) 0, 0, 0⟩
      [[97, 98], [10, 99], [100, 10], [101]]).1 =
    [some ⟨"utf-8", [97, 98, 10]⟩, some ⟨"utf-8", [99, 100, 10]⟩,
     some ⟨"utf-8", [101]⟩, none, none] := by decide

/-- Claim C4 (confirmed): when bytes are pending (`istart ≠ offset`) and
the delimiter occurs at `cutidx` within `[istart, offset)`, the call
returns the decoded bytes `[istart, cutidx]` inclusive of the delimiter
(the slice is returned verbatim, so any `\r` is retained and the last byte
is `0x0A`), sets `istart` to `cutidx + 1`, and performs no physical read
(the source is untouched and the buffer unchanged). -/
theorem pending_delimiter_fast_path (c : Nat) (e : String) (G : GState)
    (src : List (List Nat)) (cutidx : Nat) (hWF : WF G)
    (hne : G.istart ≠ G.offset)
    (hfind : _find G.buf 10 G.istart G.offset = some cutidx) :
    getsCall c e G src =
      (some ⟨e, bufSlice G.buf G.istart (cutidx + 1)⟩,
       { G with istart := cutidx + 1 }, src) ∧
    (bufSlice G.buf G.istart (cutidx + 1)).getLast? = some 10 := by
  constructor
  · unfold getsCall
    rw [if_neg hne, hfind]
    rfl
  · obtain ⟨h1, h2, h3, -⟩ := _find_some hfind
    have hline : bufSlice G.buf G.istart (cutidx + 1) =
        bufSlice G.buf G.istart cutidx ++ [10] := by
      rw [bufSlice_split h1 (by omega : cutidx ≤ cutidx + 1)]
      congr 1
      rw [bufSlice_singleton (by have := hWF.2.1; omega)]
      rw [h3]
    rw [hline, List.getLast?_concat]

/-- Witness for C4 at a concrete input. -/
theorem pending_delimiter_fast_path_witness :
    getsCall 2 "utf-8" (⟨[97, 10, 98, 0], 0, 3⟩ : GState) [[99]] =
      (some ⟨"utf-8", [97, 10]⟩, ⟨[97, 10, 98, 0], 2, 3⟩, [[99]]) ∧
    (bufSlice [97, 10, 98, 0] 0 2).getLast? = some 10 := by
  have h := pending_delimiter_fast_path 2 "utf-8" ⟨[97, 10, 98, 0], 0, 3⟩
    [[99]] 1 (by decide) (by decide) (by decide)
  exact ⟨h.1.trans (by decide), h.2⟩

/-- Claim C5 (confirmed): before each physical read, if one more chunk
would not fit and `istart ≠ 0` the live region `[istart, offset)` is
shifted down to index `0` with the cursors updated (and, when that frees
enough room, no reallocation happens: the capacity is unchanged); if a
chunk still would not fit, the buffer is reallocated to a power-of-two
capacity at least `offset + chunk_size`, copying the live region `[0,
offset)`; and nothing happens when the chunk already fits.  Bounded to
`offset + chunk_size ≤ 2^30`, the domain on which the model's `_sub2exp`
is faithful to the JS doubling loop — beyond it the source's `_resize`
diverges on the Int32 `<<` wrap instead of reallocating. -/
theorem compaction_before_growth (c : Nat) (G : GState) (hWF : WF G)
    (hpow : ∃ k, G.buf.length = 2 ^ k)
    (_hbound : G.offset + c ≤ 2 ^ 30) :
    (G.offset + c ≤ G.buf.length → _prepare c G = G) ∧
    (G.buf.length < G.offset + c → G.istart ≠ 0 →
      G.offset - G.istart + c ≤ G.buf.length →
      _prepare c G = _shift G ∧
      (_shift G).buf.length = G.buf.length ∧ (_shift G).istart = 0 ∧
      (_shift G).offset = G.offset - G.istart ∧
      bufSlice (_shift G).buf 0 (G.offset - G.istart) = pend G) ∧
    (G.buf.length < G.offset + c → G.istart ≠ 0 →
      G.buf.length < G.offset - G.istart + c →
      (∃ k, (_prepare c G).buf.length = 2 ^ k) ∧
      G.offset - G.istart + c ≤ (_prepare c G).buf.length ∧
      (_prepare c G).istart = 0 ∧ (_prepare c G).offset = G.offset - G.istart ∧
      bufSlice (_prepare c G).buf 0 (G.offset - G.istart) = pend G) ∧
    (G.buf.length < G.offset + c → G.istart = 0 →
      (∃ k, (_prepare c G).buf.length = 2 ^ k) ∧
      G.offset + c ≤ (_prepare c G).buf.length ∧
      (_prepare c G).istart = G.istart ∧ (_prepare c G).offset = G.offset ∧
      bufSlice (_prepare c G).buf 0 G.offset = bufSlice G.buf 0 G.offset) := by
  obtain ⟨hlenS, hi0, ho, hpendS, hWFS⟩ := _shift_spec hWF
  refine ⟨?_, ?_, ?_, ?_⟩
  · intro hfit
    unfold _prepare _prepareGrow
    rw [if_neg (show ¬(G.buf.length < G.offset + c ∧ G.istart ≠ 0) by omega)]
    rw [if_neg (show ¬(G.buf.length < G.offset + c) by omega)]
  · intro hover hs0 hfit2
    have heq : _prepare c G = _shift G := by
      unfold _prepare _prepareGrow
      rw [if_pos (show G.buf.length < G.offset + c ∧ G.istart ≠ 0 from ⟨hover, hs0⟩)]
      rw [if_neg (show ¬((_shift G).buf.length < (_shift G).offset + c) by
        rw [hlenS, ho]; omega)]
    refine ⟨heq, hlenS, hi0, ho, ?_⟩
    rw [show bufSlice (_shift G).buf 0 (G.offset - G.istart)
      = pend (_shift G) by rw [pend, hi0, ho]]
    exact hpendS
  · intro hover hs0 hover2
    have heq : _prepare c G = _resize (_shift G) ((_shift G).offset + c) := by
      unfold _prepare _prepareGrow
      rw [if_pos (show G.buf.length < G.offset + c ∧ G.istart ≠ 0 from ⟨hover, hs0⟩)]
      rw [if_pos (show (_shift G).buf.length < (_shift G).offset + c by
        rw [hlenS, ho]; omega)]
    obtain ⟨hlen', hi', ho', hpend', hpre', hat', hWF'⟩ :=
      _resize_spec hWFS ((_shift G).offset + c) (by omega)
    rw [heq]
    refine ⟨?_, by omega, by rw [hi', hi0], by rw [ho', ho], ?_⟩
    · rw [hlen', hlenS]
      exact _sub2exp_pow2_mul _ _ hpow
    · rw [show bufSlice (_resize (_shift G) ((_shift G).offset + c)).buf 0
        (G.offset - G.istart) = pend (_resize (_shift G) ((_shift G).offset + c))
        by rw [pend, hi', ho', hi0, ho]]
      rw [hpend', hpendS]
  · intro hover hs0
    have heq : _prepare c G = _resize G (G.offset + c) := by
      unfold _prepare _prepareGrow
      rw [if_neg (show ¬(G.buf.length < G.offset + c ∧ G.istart ≠ 0) from
        fun hcon => hcon.2 hs0)]
      rw [if_pos hover]
    obtain ⟨hlen', hi', ho', hpend', hpre', hat', hWF'⟩ :=
      _resize_spec hWF (G.offset + c) (by omega)
    rw [heq]
    exact ⟨by rw [hlen']; exact _sub2exp_pow2_mul _ _ hpow, by omega, hi', ho', hpre'⟩

/-- Witness for C5 at concrete inputs (one per branch). -/
theorem compaction_before_growth_witness :
    _prepare 1 (⟨[97, 0], 0, 1⟩ : GState) = ⟨[97, 0], 0, 1⟩ ∧
    _prepare 1 (⟨[97, 98], 1, 2⟩ : GState) = _shift ⟨[97, 98], 1, 2⟩ ∧
    (∃ k, (_prepare 4 (⟨[97, 98], 1, 2⟩ : GState)).buf.length = 2 ^ k) ∧
    (∃ k, (_prepare 4 (⟨[97, 98], 0, 2⟩ : GState)).buf.length = 2 ^ k) := by
  refine ⟨(compaction_before_growth 1 ⟨[97, 0], 0, 1⟩ (by decide)
      ⟨1, by decide⟩ (by decide)).1 (by decide),
    ((compaction_before_growth 1 ⟨[97, 98], 1, 2⟩ (by decide)
      ⟨1, by decide⟩ (by decide)).2.1 (by decide) (by decide) (by decide)).1,
    ((compaction_before_growth 4 ⟨[97, 98], 1, 2⟩ (by decide)
      ⟨1, by decide⟩ (by decide)).2.2.1 (by decide) (by decide) (by decide)).1,
    ((compaction_before_growth 4 ⟨[97, 98], 0, 2⟩ (by decide)
      ⟨1, by decide⟩ (by decide)).2.2.2 (by decide) (by decide)).1⟩

/-- Claim C1 counterexample: the per-instance variant (src/index.js lines
9-96) violates the property.  With `bufsize = 8`, `chunksize = 4` and input
`"ab\ncd"` (`[97, 98, 10, 99, 100]`, one delimiter), the first call
correctly returns `"ab\n"`, but the second call's fast path copies the one
pending byte `c` into `_chunk` and then scans the *whole* chunk buffer with
`indexOf`, finds the stale delimiter left by the first read, and fabricates
the line `"cb\n"` (`[99, 98, 10]`): byte `98` is returned twice though the
stream contains it once, and the output is no prefix of the stream. -/
theorem per_instance_fabricates_line :
    (pCalls ("utf8") 2 (pInit 8 4) [97, 98, 10, 99, 100]).1 =
      [⟨"utf8", [97, 98, 10]⟩, ⟨"utf8", [99, 98, 10]⟩] ∧
    List.count 98 [97, 98, 10, 99, 100] = 1 ∧
    List.count 98 ([97, 98, 10] ++ [99, 98, 10]) = 2 ∧
    (pCalls ("utf8") 2 (pInit 8 4) [97, 98, 10, 99, 100]).2.1.offset = -2 := by
  decide

/-- Claim C1 (corrected, restricted to the shared-buffer variant,
src/index.js lines 121-238, at Int32-safe sizes): for every chunk-result
sequence whose reads are non-empty and bounded by `chunk_size`, and every
positive initial capacity, repeatedly calling the reader until the
sentinel returns lines whose byte concatenation is exactly the input
stream (no byte dropped or duplicated), each tagged with the configured
encoding; the number of lines is the delimiter count `k` plus one for the
trailing partial line, the latter omitted when the stream is empty or ends
exactly at a delimiter.  The bound `stream length + chunk_size ≤ 2^30`
keeps every executed growth target inside the domain where the model's
`_sub2exp` is faithful (`offset` never exceeds the stream length, so every
`_resize` target is within it); beyond that domain the source's doubling
loop wraps at the Int32 `<<` and diverges, yielding no lines at all. -/
theorem gets_no_data_loss (c cap : Nat) (e : String) (src : List (List Nat))
    (hcap : 0 < cap) (hsrc : ∀ d ∈ src, d ≠ [] ∧ d.length ≤ c)
    (_hbound : src.flatten.length + c ≤ 2 ^ 30) :
    ((getsAll c e ⟨List.replicate cap 0, 0, 0⟩ src).map Line.bytes).flatten =
      src.flatten ∧
    (∀ l ∈ getsAll c e ⟨List.replicate cap 0, 0, 0⟩ src, l.enc = e) ∧
    (getsAll c e ⟨List.replicate cap 0, 0, 0⟩ src).length =
      List.count 10 src.flatten +
      (if src.flatten.getLast? = some 10 ∨ src.flatten = [] then 0 else 1) := by
  have hWF : WF (⟨List.replicate cap 0, 0, 0⟩ : GState) := by
    refine ⟨Nat.le_refl 0, Nat.zero_le _, ?_⟩
    simp
    omega
  have hpend : pend (⟨List.replicate cap 0, 0, 0⟩ : GState) = [] :=
    bufSlice_self _ _
  obtain ⟨hflat, hmem, hlen⟩ := getsAll_spec ⟨List.replicate cap 0, 0, 0⟩ src hWF hsrc
  rw [hpend] at hflat hlen
  simp only [List.nil_append] at hflat hlen
  exact ⟨hflat, fun l hl => (hmem l hl).1, hlen⟩

/-- Witness for C1 (amended) at the spec's concrete scenario. -/
theorem gets_no_data_loss_witness :
    0 < 4 ∧ (∀ d ∈ [[97, 98], [10, 99], [100, 10], [101]],
      d ≠ ([] : List Nat) ∧ d.length ≤ 2) ∧
    ((getsAll 2 "utf-8" ⟨List.replicate 4 0, 0, 0⟩
        [[97, 98], [10, 99], [100, 10], [101]]).map Line.bytes).flatten =
      [97, 98, 10, 99, 100, 10, 101] := by
  refine ⟨by decide, by decide, ?_⟩
  have h := (gets_no_data_loss 2 4 "utf-8" [[97, 98], [10, 99], [100, 10], [101]]
    (by decide) (by decide) (by decide)).1
  rw [h]
  decide

/-- Claim C9 (confirmed): the cursor invariant `0 ≤ istart ≤ offset ≤
capacity` holds before and after every call (the lower bound is inherent to
`Nat`): starting from a well-formed state whose capacity is positive (as
construction guarantees), after any number of calls against any sequence of
physical-read results of at most `chunk_size` bytes each, the reached state
still satisfies `istart ≤ offset ≤ capacity`. -/
theorem gets_cursor_invariant (c : Nat) (e : String) (n : Nat) (G : GState)
    (src : List (List Nat)) (hWF : WF G) (hsrc : ∀ d ∈ src, d.length ≤ c) :
    (getsCalls c e n G src).2.1.istart ≤ (getsCalls c e n G src).2.1.offset ∧
    (getsCalls c e n G src).2.1.offset ≤
      (getsCalls c e n G src).2.1.buf.length := by
  suffices h : WF (getsCalls c e n G src).2.1 from ⟨h.1, h.2.1⟩
  induction n generalizing G src with
  | zero => exact hWF
  | succ n ih =>
      rcases hstep : getsCall c e G src with ⟨r, G', s'⟩
      have hWFs := getsCall_WF (e := e) hWF hsrc
      rw [hstep] at hWFs
      simp only [getsCalls, hstep]
      rcases hrun : getsCalls c e n G' s' with ⟨rs, G'', s''⟩
      have := ih G' s' hWFs.1 (fun d hd => hsrc d (hWFs.2.subset hd))
      rw [hrun] at this
      exact this

/-- Witness for C9 at a concrete input. -/
theorem gets_cursor_invariant_witness :
    (getsCalls 2 "utf-8" 3 ⟨List.replicate 4 0, 0, 0⟩
      [[97, 98], [10], []]).2.1.istart ≤
      (getsCalls 2 "utf-8" 3 ⟨List.replicate 4 0, 0, 0⟩
        [[97, 98], [10], []]).2.1.offset := by
  have h := gets_cursor_invariant 2 "utf-8" 3 ⟨List.replicate 4 0, 0, 0⟩
    [[97, 98], [10], []] (by decide) (by decide)
  exact h.1

/-- Claim C6 counterexample: with a registered buffer of capacity 1 for
handle 0, constructing a reader with `buffer_size = 4` leaves the world —
and in particular the existing buffer's capacity — completely unchanged
(capacity stays 1, although the smallest power of two ≥ 4 is 4).  The
code's own JSDoc says so: "If a buffer is already allocated, this option
will be ignored." -/
theorem existing_buffer_not_grown :
    (createGets 0 4 2048 "utf-8" ⟨[⟨[0], 0, 0⟩], [(0, 0)]⟩).2 =
      ⟨[⟨[0], 0, 0⟩], [(0, 0)]⟩ ∧
    ((createGets 0 4 2048 "utf-8" ⟨[⟨[0], 0, 0⟩], [(0, 0)]⟩).2.heap.getD
      ((createGets 0 4 2048 "utf-8" ⟨[⟨[0], 0, 0⟩], [(0, 0)]⟩).1.gref)
      ⟨[], 0, 0⟩).buf.length = 1 ∧
    _sub2exp 4 1 = 4 := by decide

/-- Claim C6 (corrected): when `createGets` is called for a handle whose
registered buffer already exists, the requested `buffer_size` is ignored
entirely — the existing buffer is *not* grown, and the world is unchanged;
only the per-instance chunk size and encoding are taken from the call. -/
theorem existing_buffer_bufsize_ignored (fd : Nat) (b c : Int) (e : String)
    (w : World) (a : Nat) (h : regLookup w.registry fd = some a) :
    createGets fd b c e w =
      (⟨fd, if c ≤ 0 then 2048 else c.toNat, e, a⟩, w) := by
  unfold createGets
  rw [h]

/-- Witness for C6 (amended) at a concrete input. -/
theorem existing_buffer_bufsize_ignored_witness :
    createGets 0 4 2048 "utf-8" ⟨[⟨[0], 0, 0⟩], [(0, 0)]⟩ =
      (⟨0, 2048, "utf-8", 0⟩, ⟨[⟨[0], 0, 0⟩], [(0, 0)]⟩) := by
  have h := existing_buffer_bufsize_ignored 0 4 2048 "utf-8"
    ⟨[⟨[0], 0, 0⟩], [(0, 0)]⟩ 0 (by decide)
  exact h.trans (by decide)

/-- Claim C7 counterexample: the shared-buffer variant exports no
`remove_buffer` at all (`module.exports` lists only `createGets`), and
deleting a handle's registry entry does not make readers fail: a reader
constructed before the deletion still returns the next line (here `"a\n"`)
— no `StaleHandle` error exists anywhere in the code. -/
theorem no_stale_handle_error :
    ("remove_buffer" ∈ moduleExports) = False ∧
    (readerCall (createGets 0 4 4 "utf-8" ⟨[], []⟩).1
        (remove_buffer 0 (createGets 0 4 4 "utf-8" ⟨[], []⟩).2) [[97, 10]]).1 =
      some ⟨"utf-8", [97, 10]⟩ := by decide

/-- Claim C7 (corrected): no teardown API exists — `module.exports` of the
shared-buffer variant contains only `createGets`.  Modelling the spec's
`remove_buffer` as deletion of the handle's registry entry, the deletion
leaves the heap untouched and every reader — which captured its state
object at construction — behaves exactly as before: `next_line()` keeps
returning lines or the sentinel, and never a `StaleHandle` error. -/
theorem remove_buffer_has_no_effect_on_readers (fd : Nat) (w : World)
    (cfg : GetsConfig) (src : List (List Nat)) :
    "remove_buffer" ∉ moduleExports ∧
    (remove_buffer fd w).heap = w.heap ∧
    (readerCall cfg (remove_buffer fd w) src).1 = (readerCall cfg w src).1 ∧
    (readerCall cfg (remove_buffer fd w) src).2.1.heap =
      (readerCall cfg w src).2.1.heap ∧
    (readerCall cfg (remove_buffer fd w) src).2.2 =
      (readerCall cfg w src).2.2 := by
  refine ⟨by decide, rfl, ?_, ?_, ?_⟩ <;>
  · unfold readerCall remove_buffer
    rcases getsCall cfg.chunksize cfg.encoding
      (w.heap.getD cfg.gref ⟨[], 0, 0⟩) src with ⟨r, G', s'⟩
    rfl

/-- Claim C8 (confirmed): construction defaults to `handle = 0`,
`buffer_size = 32768`, `chunk_size = 2048`, `encoding = "utf-8"`;
non-positive sizes fall back to these defaults; and for a fresh handle the
allocated capacity is the smallest power of two ≥ the (validated)
`buffer_size`, with minimum 1.  Bounded to `buffer_size ≤ 2^30`, the
domain on which the model's `_sub2exp` is faithful to the JS loop — for a
larger request the source wraps at the Int32 `<<` and diverges, never
allocating (the non-positive fallback 32768 is inside the domain). -/
theorem construction_defaults_and_capacity (fd : Nat) (b c : Int)
    (e : String) (w : World) (hnew : regLookup w.registry fd = none)
    (_hb : b ≤ 2 ^ 30) :
    createGetsDefaults w = createGets 0 32768 2048 "utf-8" w ∧
    (b ≤ 0 → createGets fd b c e w = createGets fd 32768 c e w) ∧
    (c ≤ 0 → createGets fd b c e w = createGets fd b 2048 e w) ∧
    (createGets fd b c e w).1.chunksize = (if c ≤ 0 then 2048 else c.toNat) ∧
    (createGets fd b c e w).1.encoding = e ∧
    (createGets fd b c e w).1.fd = fd ∧
    (∃ G0 : GState, (createGets fd b c e w).2.heap = w.heap ++ [G0] ∧
      G0.istart = 0 ∧ G0.offset = 0 ∧
      (∃ k, G0.buf.length = 2 ^ k) ∧
      (if b ≤ 0 then (32768 : Nat) else b.toNat) ≤ G0.buf.length ∧
      1 ≤ G0.buf.length ∧
      (∀ m, (if b ≤ 0 then (32768 : Nat) else b.toNat) ≤ 2 ^ m →
        G0.buf.length ≤ 2 ^ m)) := by
  refine ⟨rfl, ?_, ?_, ?_, ?_, ?_, ?_⟩
  · intro hb
    unfold createGets
    rw [if_pos hb, if_neg (by omega : ¬(32768 : Int) ≤ 0)]
    rfl
  · intro hc
    unfold createGets
    rw [if_pos hc, if_neg (by omega : ¬(2048 : Int) ≤ 0)]
    rfl
  · unfold createGets
    rw [hnew]
  · unfold createGets
    rw [hnew]
  · unfold createGets
    rw [hnew]
  · refine ⟨⟨List.replicate (_sub2exp (if b ≤ 0 then 32768 else b.toNat) 1) 0,
      0, 0⟩, ?_, rfl, rfl, ?_, ?_, ?_, ?_⟩
    · unfold createGets
      rw [hnew]
    · show ∃ k, (List.replicate (_sub2exp (if b ≤ 0 then 32768 else b.toNat) 1)
        0).length = 2 ^ k
      rw [List.length_replicate]
      exact _sub2exp_pow2 _
    · show (if b ≤ 0 then (32768 : Nat) else b.toNat) ≤
        (List.replicate (_sub2exp (if b ≤ 0 then 32768 else b.toNat) 1) 0).length
      rw [List.length_replicate]
      exact _sub2exp_ge _ 1 (by omega)
    · show 1 ≤ (List.replicate (_sub2exp (if b ≤ 0 then 32768 else b.toNat) 1) 0).length
      rw [List.length_replicate]
      exact _sub2exp_ge_base _ 1 (by omega)
    · intro m hm
      show (List.replicate (_sub2exp (if b ≤ 0 then 32768 else b.toNat) 1) 0).length ≤ 2 ^ m
      rw [List.length_replicate]
      exact _sub2exp_min _ m hm

/-- Witness for C8 at a concrete input (an empty world). -/
theorem construction_defaults_and_capacity_witness :
    createGets 5 (-3) 0 "latin1" (⟨[], []⟩ : World) =
      (⟨5, 2048, "latin1", 0⟩,
       ⟨[⟨List.replicate 32768 0, 0, 0⟩], [(5, 0)]⟩) ∧
    createGets 5 (-3) 0 "latin1" (⟨[], []⟩ : World) =
      createGets 5 32768 0 "latin1" (⟨[], []⟩ : World) := by
  have h := construction_defaults_and_capacity 5 (-3) 0 "latin1" ⟨[], []⟩ rfl
    (by decide)
  refine ⟨?_, h.2.1 (by omega)⟩
  have h2 := h.2.1 (by omega)
  rw [h2]
  rfl

/-- Looking up a handle right after registering it finds the new entry. -/
theorem regLookup_cons_self (R : List (Nat × Nat)) (fd a : Nat) :
    regLookup ((fd, a) :: R) fd = some a := by
  unfold regLookup
  rw [if_pos rfl]

/-- Claim C10 (confirmed): two readers created for the same handle share
exactly the one registry-registered state object — the second `createGets`
allocates nothing and both closures capture the same address, hence the
same buffer and the same two cursors — while `chunk_size` and `encoding`
are captured per instance: every call of the second reader reads and
writes the heap cell at the first reader's address but performs its reads
with its own validated chunk size and tags lines with its own encoding. -/
theorem shared_state_per_instance_config (fd : Nat) (b1 c1 b2 c2 : Int)
    (e1 e2 : String) (w : World) :
    (createGets fd b2 c2 e2 (createGets fd b1 c1 e1 w).2).1.gref =
      (createGets fd b1 c1 e1 w).1.gref ∧
    (createGets fd b2 c2 e2 (createGets fd b1 c1 e1 w).2).2 =
      (createGets fd b1 c1 e1 w).2 ∧
    (createGets fd b1 c1 e1 w).1.chunksize =
      (if c1 ≤ 0 then 2048 else c1.toNat) ∧
    (createGets fd b1 c1 e1 w).1.encoding = e1 ∧
    (createGets fd b2 c2 e2 (createGets fd b1 c1 e1 w).2).1.chunksize =
      (if c2 ≤ 0 then 2048 else c2.toNat) ∧
    (createGets fd b2 c2 e2 (createGets fd b1 c1 e1 w).2).1.encoding = e2 ∧
    (∀ (w' : World) (src : List (List Nat)),
      readerCall (createGets fd b2 c2 e2 (createGets fd b1 c1 e1 w).2).1 w' src =
        (match getsCall (if c2 ≤ 0 then 2048 else c2.toNat) e2
            (w'.heap.getD (createGets fd b1 c1 e1 w).1.gref ⟨[], 0, 0⟩) src with
         | (r, G', s') =>
            (r, ⟨w'.heap.set (createGets fd b1 c1 e1 w).1.gref G', w'.registry⟩,
             s'))) := by
  have hkey : ∃ a, (createGets fd b1 c1 e1 w).1.gref = a ∧
      regLookup (createGets fd b1 c1 e1 w).2.registry fd = some a := by
    unfold createGets
    rcases hl : regLookup w.registry fd with _ | a
    · exact ⟨w.heap.length, rfl, regLookup_cons_self _ _ _⟩
    · exact ⟨a, rfl, hl⟩
  obtain ⟨a, hgref, hl2⟩ := hkey
  have hsec : ∀ w1 : World, regLookup w1.registry fd = some a →
      createGets fd b2 c2 e2 w1 =
        (⟨fd, if c2 ≤ 0 then 2048 else c2.toNat, e2, a⟩, w1) := by
    intro w1 h
    unfold createGets
    rw [h]
  have hsecond := hsec _ hl2
  have hfirst : (createGets fd b1 c1 e1 w).1.chunksize =
      (if c1 ≤ 0 then 2048 else c1.toNat) ∧
      (createGets fd b1 c1 e1 w).1.encoding = e1 := by
    unfold createGets
    rcases hl : regLookup w.registry fd with _ | a' <;> exact ⟨rfl, rfl⟩
  refine ⟨by rw [hsecond, hgref], by rw [hsecond], hfirst.1, hfirst.2,
    by rw [hsecond], by rw [hsecond], ?_⟩
  intro w' src
  rw [hsecond, hgref]
  unfold readerCall
  rfl
